import Mathlib

/-!
Verification of the `ttbl` boolean truth-table engine.

This file is a shallow embedding of the Rust sources
(`src/scanner.rs`, `src/compiler.rs`, `src/execution.rs`) together with
theorems about the embedded definitions.

Modelling conventions:
* Rust strings are byte sequences, modelled as `List Nat` (each entry a
  byte value `< 256`).  `bts` turns an ASCII Lean string literal into its
  byte sequence for readability.
* Rust `Vec` stacks (push/pop at the end) are modelled as Lean lists with
  the top of the stack at the HEAD of the list.
* Runtime panics (`unwrap` on `None`, string slicing outside a character
  boundary, out-of-bounds indexing, a `match` without a fitting arm) are
  modelled by `Option`/`Except`: `none` / `.error` means the original
  program panics.
* Machine integers (`usize`, `u16`, `u32`) are modelled as `Nat`; all
  quantities involved (list lengths, indices, priorities) are far below
  any wrap-around boundary, so overflow cannot occur.
-/

/-- Bytes of an ASCII string literal (for ASCII text, `Char.toNat` of each
character is exactly its UTF-8 byte). -/
def bts (s : String) : List Nat := s.data.map Char.toNat

/-! ## Scanner (`src/scanner.rs`) -/

inductive OperatorType where
  | AND | NOT | OR | CNDL | BI_CNDL
deriving DecidableEq, Repr

inductive TokenType where
  | Operator (op : OperatorType)
  | Variable
  | Literal (b : Bool)
  | LeftParen
  | RightParen
  | LeftBrace
  | RightBrace
  | Error
  | EOF
deriving DecidableEq, Repr

structure Token where
  lexeme : List Nat
  token_type : TokenType
deriving DecidableEq, Repr

/-- `char::is_ascii_alphabetic` on a byte. -/
def isAsciiAlphabetic (b : Nat) : Bool :=
  (65 ≤ b && b ≤ 90) || (97 ≤ b && b ≤ 122)

/-- `char::is_ascii_alphanumeric` on a byte. -/
def isAsciiAlphanumeric (b : Nat) : Bool :=
  isAsciiAlphabetic b || (48 ≤ b && b ≤ 57)

/-- `u8::to_ascii_lowercase` on a byte. -/
def toLowerByte (b : Nat) : Nat :=
  if 65 ≤ b && b ≤ 90 then b + 32 else b

/-- Rust's `str::is_char_boundary` for an index into a (valid UTF-8) byte
string: the index is the length, or it is in range and the byte there is
not a UTF-8 continuation byte.  String slicing panics when an endpoint is
not a character boundary. -/
def isCharBoundary (src : List Nat) (i : Nat) : Bool :=
  i == src.length ||
    (i < src.length && !(128 ≤ src.getD i 0 && src.getD i 0 < 192))

/-- `ScanState::make_token`: slices `source[start..next]`.  Returns `none`
(a panic) when an endpoint is not a character boundary. -/
def make_token (src : List Nat) (start next : Nat) (tt : TokenType) : Option Token :=
  if isCharBoundary src start && isCharBoundary src next && start ≤ next then
    some ⟨(src.drop start).take (next - start), tt⟩
  else
    none

/-- Length of the maximal run of ASCII-alphanumeric bytes at the front of
the list (the identifier-extension loop of `tokenize`). -/
def identLen : List Nat → Nat
  | [] => 0
  | b :: rest => if isAsciiAlphanumeric b then identLen rest + 1 else 0

/-- Keyword / literal classification of an identifier lexeme
(the `keywords_map` lookup and the lowercase `true/t/false/f` match). -/
def classifyIdent (lexeme : List Nat) : TokenType :=
  if lexeme == bts "and" then TokenType.Operator OperatorType.AND
  else if lexeme == bts "or" then TokenType.Operator OperatorType.OR
  else if lexeme == bts "not" then TokenType.Operator OperatorType.NOT
  else
    let lower := lexeme.map toLowerByte
    if lower == bts "true" || lower == bts "t" then TokenType.Literal true
    else if lower == bts "false" || lower == bts "f" then TokenType.Literal false
    else TokenType.Variable

/-- One iteration of the scanning loop of `tokenize`, from position
`next` (with `start = next`, as the Rust code re-synchronises
`state.start` at the end of every iteration).  Returns the token this
iteration pushes (`none` for skipped whitespace) and the next position;
an outer `none` models a panic inside `make_token`. -/
def scanStep (src : List Nat) (next : Nat) : Option (Option Token × Nat) :=
  if src.getD next 0 == 32 || src.getD next 0 == 9 || src.getD next 0 == 10 then
    some (none, next + 1)
  else if src.getD next 0 == 38 then -- byte of the AND symbol
    (make_token src next (next + 1) (TokenType.Operator OperatorType.AND)).map
      (fun t => (some t, next + 1))
  else if src.getD next 0 == 124 then -- byte of the OR symbol
    (make_token src next (next + 1) (TokenType.Operator OperatorType.OR)).map
      (fun t => (some t, next + 1))
  else if src.getD next 0 == 33 || src.getD next 0 == 126 then -- the two NOT symbols
    (make_token src next (next + 1) (TokenType.Operator OperatorType.NOT)).map
      (fun t => (some t, next + 1))
  else if src.getD next 0 == 61 then -- byte of the equals sign
    if next + 1 < src.length && src.getD (next + 1) 0 == 62 then -- the CNDL arrow
      (make_token src next (next + 2) (TokenType.Operator OperatorType.CNDL)).map
        (fun t => (some t, next + 2))
    else
      (make_token src next (next + 1) TokenType.Error).map (fun t => (some t, next + 1))
  else if src.getD next 0 == 60 then -- the BI_CNDL start byte
    -- move_if_match of the equals sign, then of the greater-than sign
    -- (short-circuiting, so the second test runs only if the first matched)
    if next + 1 < src.length && src.getD (next + 1) 0 == 61 then
      if next + 2 < src.length && src.getD (next + 2) 0 == 62 then
        (make_token src next (next + 3) (TokenType.Operator OperatorType.BI_CNDL)).map
          (fun t => (some t, next + 3))
      else
        (make_token src next (next + 2) TokenType.Error).map (fun t => (some t, next + 2))
    else
      (make_token src next (next + 1) TokenType.Error).map (fun t => (some t, next + 1))
  else if src.getD next 0 == 40 then
    (make_token src next (next + 1) TokenType.LeftParen).map (fun t => (some t, next + 1))
  else if src.getD next 0 == 41 then
    (make_token src next (next + 1) TokenType.RightParen).map (fun t => (some t, next + 1))
  else if src.getD next 0 == 123 then
    (make_token src next (next + 1) TokenType.LeftBrace).map (fun t => (some t, next + 1))
  else if src.getD next 0 == 125 then
    (make_token src next (next + 1) TokenType.RightBrace).map (fun t => (some t, next + 1))
  else if isAsciiAlphabetic (src.getD next 0) then
    (make_token src next (next + 1 + identLen (src.drop (next + 1))) TokenType.Variable).map
      (fun t => (some { t with token_type := classifyIdent t.lexeme },
                 next + 1 + identLen (src.drop (next + 1))))
  else
    (make_token src next (next + 1) TokenType.Error).map (fun t => (some t, next + 1))

/-- The `while !state.is_at_end()` loop of `tokenize`.  The `fuel`
argument only bounds the recursion; every iteration advances the
position by at least one (`scanStep_ascii`), so `src.length + 1` units
never run out on inputs that do not panic first. -/
def tokenizeLoop (src : List Nat) : Nat → Nat → List Token → Option (List Token)
  | 0, _, _ => none
  | f + 1, next, acc =>
    if next < src.length then
      match scanStep src next with
      | none => none
      | some (none, n1) => tokenizeLoop src f n1 acc
      | some (some t, n1) => tokenizeLoop src f n1 (acc ++ [t])
    else
      some (acc ++ [⟨bts "<EOF>", TokenType.EOF⟩])

/-- `tokenize`: `none` models a panic inside the scanner. -/
def tokenize (src : List Nat) : Option (List Token) :=
  tokenizeLoop src (src.length + 1) 0 []

/-- The token list of an input string, for stating concrete examples
(`[]` would result if the scanner panicked on the input). -/
def toksOf (s : String) : List Token := (tokenize (bts s)).getD []

/-! ## Compiler (`src/compiler.rs`) -/

inductive NodeOperation where
  | BinaryOperation (op : OperatorType)
  | UnaryOperation (op : OperatorType)
  | VariableDeref (loc : Nat)
  | Literal (b : Bool)
  | Subexpression
  | IndexedSubexpression (idx : Nat)
deriving DecidableEq, Repr

/-- `ASTNode { op, left: Option<Box<ASTNode>>, right: Option<Box<ASTNode>> }`.
The four constructors enumerate the four `Option` shapes of the two child
fields: `mk0` = no children, `mkL` = left only, `mkLR` = both,
`mkR` = right only (never constructed by the compiler, present for a
faithful data model). -/
inductive ASTNode where
  | mk0 (op : NodeOperation)
  | mkL (op : NodeOperation) (left : ASTNode)
  | mkLR (op : NodeOperation) (left right : ASTNode)
  | mkR (op : NodeOperation) (right : ASTNode)
deriving DecidableEq, Repr

def ASTNode.op : ASTNode → NodeOperation
  | .mk0 o => o
  | .mkL o _ => o
  | .mkLR o _ _ => o
  | .mkR o _ => o

/-- Runtime failures of the compiler (places where the Rust program cannot
return a `CompiledSyntaxBTree`). -/
inductive Crash where
  /-- `op_priority.get(..).unwrap()` on an operator with no priority entry
  (CNDL / BI_CNDL) inside `stash_prev_op`. -/
  | precedenceLookup
  /-- `create_operation_node`'s `match op` has no arm for CNDL / BI_CNDL. -/
  | unhandledOperation
  /-- `&tokens[0]` with an empty token vector. -/
  | emptyTokens
deriving DecidableEq, Repr

/-- The `op_priority` map of `stash_prev_op`. -/
def op_priority : OperatorType → Option Nat
  | .NOT => some 6
  | .AND => some 4
  | .OR => some 2
  | _ => none

/-- `stash_prev_op`: `none` models the `unwrap` panic on an operator
without a priority. -/
def stash_prev_op (current_op target_op : OperatorType) : Option Bool :=
  match op_priority current_op, op_priority target_op with
  | some c, some t => some (c < t)
  | _, _ => none

/-- `create_operation_node`.  Pops operands from the node stack (head =
top); returns the new stack together with `some node` (`Ok`) or `none`
(`Err(())`, the missing-operand syntax error).  `.error` models the match
without an arm for CNDL / BI_CNDL. -/
def create_operation_node (ns : List ASTNode) :
    OperatorType → Except Crash (Option ASTNode × List ASTNode)
  | .AND => match ns with
    | right :: left :: rest => .ok (some (.mkLR (.BinaryOperation .AND) left right), rest)
    | _ => .ok (none, [])
  | .OR => match ns with
    | right :: left :: rest => .ok (some (.mkLR (.BinaryOperation .OR) left right), rest)
    | _ => .ok (none, [])
  | .NOT => match ns with
    | left :: rest => .ok (some (.mkL (.UnaryOperation .NOT) left), rest)
    | _ => .ok (none, [])
  | _ => .error Crash.unhandledOperation

/-- `CompiledSyntaxBTree { error_token, root, variables }` (the
`variables` field is called `vars` here because `variables` is reserved
in Lean). -/
structure CompiledSyntaxBTree where
  error_token : Option Token
  root : Option ASTNode
  vars : List (List Nat)
deriving DecidableEq, Repr

/-- Parser state threaded through `compile`'s token loop: node stack,
operator/bracket stack, variable table (first occurrence first), error
flag and recorded error token. -/
structure CState where
  ns : List ASTNode
  os : List TokenType
  vars : List (List Nat)
  error : Bool
  errTok : Token
deriving DecidableEq, Repr

/-- The inner `while` loop of the `Operator` branch of `compile`: reduce
pending operators of strictly greater priority.  Returns the new node
stack, the new operator stack, and whether `error` was set. -/
def opWhile (cur : OperatorType) (ns : List ASTNode) :
    List TokenType → Except Crash (List ASTNode × List TokenType × Bool)
  | [] => .ok (ns, [], false)
  | top :: rest =>
    match top with
    | TokenType.Operator target =>
      match stash_prev_op cur target with
      | none => .error Crash.precedenceLookup
      | some false => .ok (ns, top :: rest, false)
      | some true =>
        match create_operation_node ns target with
        | .error c => .error c
        | .ok (none, ns') => .ok (ns', top :: rest, true)
        | .ok (some n, ns') => opWhile cur (n :: ns') rest
    | _ => .ok (ns, top :: rest, false)

/-- The `while` loop of the `RightParen | RightBrace | EOF` branch of
`compile`. -/
def closeWhile (tt : TokenType) (ns : List ASTNode) :
    List TokenType → Except Crash (List ASTNode × List TokenType × Bool)
  | [] => .ok (ns, [], false)
  | top :: rest =>
    match top with
    | TokenType.Operator op =>
      match create_operation_node ns op with
      | .error c => .error c
      | .ok (none, ns') => .ok (ns', top :: rest, true)
      | .ok (some n, ns') => closeWhile tt (n :: ns') rest
    | _ =>
      let paren_closing := tt == TokenType.RightParen && top == TokenType.LeftParen
      let brace_closing := tt == TokenType.RightBrace && top == TokenType.LeftBrace
      if paren_closing then .ok (ns, rest, false)
      else if brace_closing then
        -- wrap the produced subtree in a Subexpression node, unless it
        -- already is one ("Prevent redundant nested groups")
        let ns2 := match ns with
          | [] => ns
          | n :: ns' =>
            if n.op == NodeOperation.Subexpression then n :: ns'
            else ASTNode.mkL NodeOperation.Subexpression n :: ns'
        .ok (ns2, rest, false)
      else .ok (ns, top :: rest, true)

/-- One iteration of `compile`'s token loop. -/
def compileStep (st : CState) (tok : Token) : Except Crash CState :=
  match tok.token_type with
  | TokenType.Error => .ok { st with error := true, errTok := tok }
  | TokenType.LeftParen => .ok { st with os := TokenType.LeftParen :: st.os }
  | TokenType.LeftBrace => .ok { st with os := TokenType.LeftBrace :: st.os }
  | TokenType.Variable =>
    let (loc, vars') :=
      match st.vars.findIdx? (fun v => v == tok.lexeme) with
      | some pos => (pos, st.vars)
      | none => (st.vars.length, st.vars ++ [tok.lexeme])
    .ok { st with ns := ASTNode.mk0 (NodeOperation.VariableDeref loc) :: st.ns,
                  vars := vars' }
  | TokenType.Literal v =>
    .ok { st with ns := ASTNode.mk0 (NodeOperation.Literal v) :: st.ns }
  | TokenType.Operator cur =>
    match opWhile cur st.ns st.os with
    | .error c => .error c
    | .ok (ns', os', err) =>
      .ok { st with ns := ns', os := TokenType.Operator cur :: os',
                    error := st.error || err,
                    errTok := if err then tok else st.errTok }
  | TokenType.RightParen | TokenType.RightBrace | TokenType.EOF =>
    match closeWhile tok.token_type st.ns st.os with
    | .error c => .error c
    | .ok (ns', os', err) =>
      .ok { st with ns := ns', os := os',
                    error := st.error || err,
                    errTok := if err then tok else st.errTok }

/-- `compile`'s `for token in tokens` loop (stops once `error` is set). -/
def compileLoop : List Token → CState → Except Crash CState
  | [], st => .ok st
  | tok :: rest, st =>
    if st.error then .ok st
    else
      match compileStep st tok with
      | .error c => .error c
      | .ok st' => compileLoop rest st'

/-- The result assembly at the end of `compile`: an error state surfaces
its recorded token; a clean state with an empty operator stack and a
single completed subtree yields the root; anything else yields the
synthetic end-of-input error token. -/
def finalize (st : CState) : CompiledSyntaxBTree :=
  if st.error then
    { error_token := some st.errTok, root := none, vars := st.vars }
  else if st.os.length == 0 && st.ns.length == 1 then
    { error_token := none, root := st.ns.head?, vars := st.vars }
  else
    { error_token := some ⟨bts "<EOF>", TokenType.EOF⟩, root := none,
      vars := st.vars }

/-- `compile` (returns `CompiledSyntaxBTree`; `.error` models a panic). -/
def compile (tokens : List Token) : Except Crash CompiledSyntaxBTree :=
  match tokens with
  | [] => .error Crash.emptyTokens
  | t0 :: _ =>
    match compileLoop tokens ⟨[], [], [], false, t0⟩ with
    | .error c => .error c
    | .ok st => .ok (finalize st)

/-! ## Execution layer (`src/execution.rs`) -/

/-- `postorder_traversal_postfix`: flatten the AST into its postfix
operation sequence (left child, right child, own operation).  When the
left child is absent the right child is not visited either, mirroring the
nested `if let` structure of the source.  The `usize` the Rust function
returns is the number of operations pushed, i.e. the length of this
list. -/
def postorder_traversal : ASTNode → List NodeOperation
  | .mk0 op => [op]
  | .mkL op l => postorder_traversal l ++ [op]
  | .mkLR op l r => postorder_traversal l ++ postorder_traversal r ++ [op]
  | .mkR op _ => [op]

/-- `op_backtrack_size`: number of operands an operation consumes. -/
def op_backtrack_size : NodeOperation → Nat
  | .Literal _ => 0
  | .VariableDeref _ => 0
  | .Subexpression => 0
  | .IndexedSubexpression _ => 0
  | .UnaryOperation _ => 1
  | .BinaryOperation _ => 2

/-- The backward walk of `subexpression_backtrack_size`, expressed over
the reversed prefix `(pf.take sub_loc).reverse` (so walking this list
forward is walking the original list backward from `sub_loc - 1`).
The `Nat` argument is `remaining`; consuming past the available elements
models the `pf_list[sub_loc - consumed]` panic. -/
def backtrackGo : List NodeOperation → Nat → Option Nat
  | _, 0 => some 0
  | [], _ + 1 => none
  | o :: rest, r + 1 => (backtrackGo rest (r + op_backtrack_size o)).map (· + 1)

/-- `subexpression_backtrack_size` (`none` models a panic: an index
underflow / out-of-bounds access during the backward walk). -/
def subexpression_backtrack_size (pf : List NodeOperation) (sub_loc : Nat) : Option Nat :=
  if sub_loc ≤ pf.length then backtrackGo ((pf.take sub_loc).reverse) 1 else none

/-- One iteration of the loop in `subexpression_groups_impl`: state is
`(pf_list, groups, total_removed)`, the location is in coordinates of the
original list.  Extracts the minimal self-contained slice ending just
before the marker and drains it from the list. -/
def sgiStep (state : List NodeOperation × List (List NodeOperation) × Nat) (loc : Nat) :
    Option (List NodeOperation × List (List NodeOperation) × Nat) :=
  let (pf, groups, removed) := state
  if loc < removed then none  -- usize underflow in `loc - total_removed`
  else
    let l := loc - removed
    match subexpression_backtrack_size pf l with
    | none => none
    | some bs =>
      some (pf.take (l - bs) ++ pf.drop l,
            groups ++ [(pf.drop (l - bs)).take bs],
            removed + bs)

/-- The `for (index, loc) in locations` loop of
`subexpression_groups_impl`. -/
def sgiLoop : List Nat → (List NodeOperation × List (List NodeOperation) × Nat) →
    Option (List NodeOperation × List (List NodeOperation) × Nat)
  | [], st => some st
  | loc :: rest, st =>
    match sgiStep st loc with
    | none => none
    | some st' => sgiLoop rest st'

/-- `subexpression_groups_impl` (`none` models a panic). -/
def subexpression_groups_impl (pf : List NodeOperation) (locs : List Nat) :
    Option (List (List NodeOperation)) :=
  (sgiLoop locs (pf, [], 0)).map (fun st => st.2.1)

/-- The marker-indexing scan of `subexpression_groups` step 1: rewrite
each `Subexpression` at position `i` to `IndexedSubexpression k` where `k`
counts markers seen so far, recording positions.  Position counter `i`
and marker counter `k` are threaded. -/
def indexSubs : List NodeOperation → Nat → Nat → List NodeOperation × List Nat
  | [], _, _ => ([], [])
  | o :: rest, i, k =>
    if o == NodeOperation.Subexpression then
      (NodeOperation.IndexedSubexpression k :: (indexSubs rest (i + 1) (k + 1)).1,
       i :: (indexSubs rest (i + 1) (k + 1)).2)
    else
      (o :: (indexSubs rest (i + 1) k).1, (indexSubs rest (i + 1) k).2)

/-- `subexpression_groups`. -/
def subexpression_groups (t : ASTNode) : Option (List (List NodeOperation)) :=
  let as_list := postorder_traversal t
  let count := as_list.length
  let as1 := (indexSubs as_list 0 0).1
  let locs := (indexSubs as_list 0 0).2
  match locs.getLast? with
  | some l =>
    if l == count - 1 then subexpression_groups_impl as1 locs
    else
      subexpression_groups_impl (as1 ++ [NodeOperation.IndexedSubexpression locs.length])
        (locs ++ [count])
  | none =>
    subexpression_groups_impl (as1 ++ [NodeOperation.IndexedSubexpression locs.length])
      (locs ++ [count])

/-- One operation of the boolean stack machine in `evaluate` (stack head =
top).  `none` models a panic: a missing operand (`expect`), an
out-of-bounds `values[..]` / `out_eval[..]` read, or a binary/unary
operator with no defined evaluation. -/
def evalOp (values out stack : List Bool) : NodeOperation → Option (List Bool)
  | .Literal v => some (v :: stack)
  | .VariableDeref loc => (values.get? loc).map (· :: stack)
  | .IndexedSubexpression s => (out.get? s).map (· :: stack)
  | .BinaryOperation ot =>
    match stack with
    | right :: left :: rest =>
      match ot with
      | .AND => some ((left && right) :: rest)
      | .OR => some ((left || right) :: rest)
      | _ => none
    | _ => none
  | .UnaryOperation ot =>
    match stack with
    | left :: rest =>
      match ot with
      | .NOT => some ((!left) :: rest)
      | _ => none
    | _ => none
  | .Subexpression => some stack  -- the `_ => ()` arm

/-- Run one group's operations on the operand stack. -/
def evalGroupOps (values out : List Bool) : List NodeOperation → List Bool →
    Option (List Bool)
  | [], stack => some stack
  | op :: rest, stack =>
    match evalOp values out stack op with
    | none => none
    | some stack' => evalGroupOps values out rest stack'

/-- The `for grp in groups` loop of `evaluate`, with the running write
index. -/
def evaluateGo (values : List Bool) : List (List NodeOperation) → List Bool → Nat →
    Option (List Bool)
  | [], out, _ => some out
  | grp :: rest, out, index =>
    match evalGroupOps values out grp [] with
    | none => none
    | some stack =>
      match stack with
      | [] => none  -- `operands_stack.pop().expect("Broken expression")`
      | result :: _ =>
        if index < out.length then
          evaluateGo values rest (out.set index result) (index + 1)
        else none  -- `out_eval[index]` out of bounds

/-- `evaluate(groups, values, out_eval)`: runs each group in order against
the variable assignment `values`, writing group `index`'s result into slot
`index` of the output buffer `out_eval` (whose initial contents are the
caller's, as for the `&mut` slice in Rust).  Returns the final buffer;
`none` models a panic. -/
def evaluate (groups : List (List NodeOperation)) (values out_eval : List Bool) :
    Option (List Bool) :=
  evaluateGo values groups out_eval 0

def SYMBOL_TRUE : List Nat := bts "<T>"
def SYMBOL_FALSE : List Nat := bts "<F>"
def SYMBOL_AND : List Nat := bts " & "
def SYMBOL_OR : List Nat := bts " | "
def SYMBOL_NOT : List Nat := bts "!"
def SYMBOL_LEFT_PAREN : List Nat := bts "("
def SYMBOL_RIGHT_PAREN : List Nat := bts ")"

/-- One operation of the string stack machine in `groups_to_string`
(strings are byte lists; `result` is the list of group strings rendered so
far).  `none` models a panic (`unwrap`/`expect` on an empty stack or an
out-of-bounds index). -/
def renderOp (vars : List (List Nat)) (result : List (List Nat))
    (stack : List (List Nat)) : NodeOperation → Option (List (List Nat))
  | .Literal v => some ((if v then SYMBOL_TRUE else SYMBOL_FALSE) :: stack)
  | .VariableDeref loc => (vars.get? loc).map (· :: stack)
  | .IndexedSubexpression s => (result.get? s).map (· :: stack)
  | .BinaryOperation ot =>
    match stack with
    | right :: left :: rest =>
      let symbol := match ot with
        | .AND => SYMBOL_AND
        | .OR => SYMBOL_OR
        | _ => []  -- `_ => ""`
      some ((SYMBOL_LEFT_PAREN ++ left ++ symbol ++ right ++ SYMBOL_RIGHT_PAREN) :: rest)
    | _ => none
  | .UnaryOperation ot =>
    match stack with
    | left :: rest =>
      let symbol := match ot with
        | .NOT => SYMBOL_NOT
        | _ => []  -- `_ => ""`
      some ((symbol ++ SYMBOL_LEFT_PAREN ++ left ++ SYMBOL_RIGHT_PAREN) :: rest)
    | _ => none
  | .Subexpression => some stack  -- the `_ => ()` arm

/-- Run one group's operations on the string stack. -/
def renderGroupOps (vars : List (List Nat)) (result : List (List Nat)) :
    List NodeOperation → List (List Nat) → Option (List (List Nat))
  | [], stack => some stack
  | op :: rest, stack =>
    match renderOp vars result stack op with
    | none => none
    | some stack' => renderGroupOps vars result rest stack'

/-- The `for grp in groups` loop of `groups_to_string`. -/
def renderGo (vars : List (List Nat)) : List (List NodeOperation) →
    List (List Nat) → Option (List (List Nat))
  | [], result => some result
  | grp :: rest, result =>
    match renderGroupOps vars result grp [] with
    | none => none
    | some stack =>
      match stack with
      | [] => none  -- `operands_stack.pop().expect("Broken expression")`
      | top :: _ => renderGo vars rest (result ++ [top])

/-- `groups_to_string(groups, variables)`. -/
def groups_to_string (groups : List (List NodeOperation))
    (vars : List (List Nat)) : Option (List (List Nat)) :=
  renderGo vars groups []

instance {ε α : Type} [DecidableEq ε] [DecidableEq α] : DecidableEq (Except ε α) :=
  fun x y =>
    match x, y with
    | .ok a, .ok b =>
      if h : a = b then isTrue (by rw [h]) else isFalse (fun hc => by cases hc; exact h rfl)
    | .error a, .error b =>
      if h : a = b then isTrue (by rw [h]) else isFalse (fun hc => by cases hc; exact h rfl)
    | .ok _, .error _ => isFalse (fun hc => by cases hc)
    | .error _, .ok _ => isFalse (fun hc => by cases hc)

/-! ## Concrete ASTs used by the example claims -/

/-- Root AST of `(p or q) and not {p and q}` (braces written as
byte 123 / byte 125). -/
def astC5 : ASTNode :=
  .mkLR (.BinaryOperation .AND)
    (.mkLR (.BinaryOperation .OR) (.mk0 (.VariableDeref 0)) (.mk0 (.VariableDeref 1)))
    (.mkL (.UnaryOperation .NOT)
      (.mkL .Subexpression
        (.mkLR (.BinaryOperation .AND) (.mk0 (.VariableDeref 0)) (.mk0 (.VariableDeref 1)))))

/-- The braced subtree `p and q` of `astC5`. -/
def bracedC5 : ASTNode :=
  .mkLR (.BinaryOperation .AND) (.mk0 (.VariableDeref 0)) (.mk0 (.VariableDeref 1))

/-- Group 0 produced for `astC5`: the postfix program of the braced
`p and q`. -/
def groupC5_0 : List NodeOperation :=
  [.VariableDeref 0, .VariableDeref 1, .BinaryOperation .AND]

/-- Group 1 produced for `astC5`: the whole expression, referencing
group 0 through `IndexedSubexpression 0`. -/
def groupC5_1 : List NodeOperation :=
  [.VariableDeref 0, .VariableDeref 1, .BinaryOperation .OR,
   .IndexedSubexpression 0, .UnaryOperation .NOT, .BinaryOperation .AND]

/-- Right-nested AST `AND(p, AND(q, r))` of `p & q & r`. -/
def astC7R : ASTNode :=
  .mkLR (.BinaryOperation .AND) (.mk0 (.VariableDeref 0))
    (.mkLR (.BinaryOperation .AND) (.mk0 (.VariableDeref 1)) (.mk0 (.VariableDeref 2)))

/-- Left-nested AST `AND(AND(p, q), r)`, for comparison in C7. -/
def astC7L : ASTNode :=
  .mkLR (.BinaryOperation .AND)
    (.mkLR (.BinaryOperation .AND) (.mk0 (.VariableDeref 0)) (.mk0 (.VariableDeref 1)))
    (.mk0 (.VariableDeref 2))

/-! ## C2 -/

/-- C2, counterexample: compiling the token stream of `p & & q` does fail,
but the recorded error token is the synthetic end-of-input token with
lexeme `<EOF>`, not the second `&` (lexeme `&`).  The second `&` triggers
no reduction (equal precedence), so the missing-operand underflow is only
discovered while reducing at the EOF token. -/
theorem c2_error_not_at_second_amp :
    compile (toksOf "p & & q") =
      .ok ⟨some ⟨bts "<EOF>", TokenType.EOF⟩, none, [bts "p", bts "q"]⟩
    ∧ bts "<EOF>" ≠ bts "&" :=
  ⟨by decide, by decide⟩

/-- C2 (amended): compiling the token stream of `p & & q` fails with a
syntax error whose error token is the end-of-input token (lexeme
`<EOF>`), not the second `&`. -/
theorem c2_amended_error_at_eof :
    (compile (toksOf "p & & q")).toOption.bind (fun r => r.error_token) =
      some ⟨bts "<EOF>", TokenType.EOF⟩
    ∧ (compile (toksOf "p & & q")).toOption.bind (fun r => r.root) = none :=
  ⟨by decide, by decide⟩

/-! ## C4 -/

/-- C4: whenever `compile` returns a `CompiledSyntaxBTree` (in particular
for every token stream ending in EOF on which it does not panic), exactly
one of `error_token` and `root` is present: `error_token` is `some` if and
only if `root` is `none`. -/
theorem c4_exactly_one_of_error_root (tokens : List Token) (r : CompiledSyntaxBTree)
    (_hEOF : ∃ t, tokens.getLast? = some t ∧ t.token_type = TokenType.EOF)
    (h : compile tokens = .ok r) :
    r.error_token.isSome = true ↔ r.root = none := by
  have hfin : ∃ st : CState, r = finalize st := by
    match tokens with
    | [] => simp [compile] at h
    | t0 :: rest =>
      cases hl : compileLoop (t0 :: rest) ⟨[], [], [], false, t0⟩ with
      | error c => simp [compile, hl] at h
      | ok st => simp [compile, hl] at h; exact ⟨st, h.symm⟩
  obtain ⟨st, rfl⟩ := hfin
  unfold finalize
  by_cases he : st.error = true
  · simp [he]
  · simp only [he, if_false, Bool.false_eq_true]
    by_cases hc : (st.os.length == 0 && st.ns.length == 1) = true
    · rw [if_pos hc]
      simp only [Bool.and_eq_true, beq_iff_eq] at hc
      obtain ⟨-, hns⟩ := hc
      match st.ns, hns with
      | [n], _ => simp
    · rw [if_neg hc]
      simp

/-- Witness for C4 at the token stream of `p`. -/
theorem c4_witness :
    (∃ t, (toksOf "p").getLast? = some t ∧ t.token_type = TokenType.EOF)
    ∧ (compile (toksOf "p") = .ok ⟨none, some (.mk0 (.VariableDeref 0)), [bts "p"]⟩)
    ∧ ((⟨none, some (.mk0 (.VariableDeref 0)), [bts "p"]⟩ :
          CompiledSyntaxBTree).error_token.isSome = true ↔
        (⟨none, some (.mk0 (.VariableDeref 0)), [bts "p"]⟩ :
          CompiledSyntaxBTree).root = none) :=
  ⟨⟨⟨bts "<EOF>", TokenType.EOF⟩, by decide⟩, by decide,
    c4_exactly_one_of_error_root (toksOf "p") _
      ⟨⟨bts "<EOF>", TokenType.EOF⟩, by decide⟩ (by decide)⟩

/-! ## C5 -/

/-- C5: `(p or q) and not {p and q}` (braces as bytes 123/125) compiles
successfully; partitioning yields exactly two groups: group 0 is the
postfix program of the braced `p and q`, and group 1 is the whole
expression referencing group 0 through `IndexedSubexpression 0`;
evaluating with p = true, q = false writes out = [false, true]. -/
theorem c5_grouping_and_evaluation :
    compile (toksOf "(p or q) and not \x7bp and q\x7d") =
      .ok ⟨none, some astC5, [bts "p", bts "q"]⟩
    ∧ subexpression_groups astC5 = some [groupC5_0, groupC5_1]
    ∧ groupC5_0 = postorder_traversal bracedC5
    ∧ evaluate [groupC5_0, groupC5_1] [true, false] [false, false] =
        some [false, true] :=
  ⟨by decide, by decide, by decide, by decide⟩

/-! ## C6 -/

/-- C6: reductions happen only for strictly greater pending precedence:
`stash_prev_op cur target` decides `priority cur < priority target` (and
panics when either priority is undefined); consequently `p & q | r`
compiles to exactly the same result as `(p & q) | r`, and `!p & q` to the
same result as `(!p) & q`. -/
theorem c6_strict_precedence_parsing :
    (∀ c t : OperatorType,
        stash_prev_op c t =
          (op_priority c).bind (fun pc => (op_priority t).map (fun pt => decide (pc < pt))))
    ∧ compile (toksOf "p & q | r") = compile (toksOf "(p & q) | r")
    ∧ compile (toksOf "!p & q") = compile (toksOf "(!p) & q") :=
  ⟨fun c t => by cases c <;> cases t <;> rfl, by decide, by decide⟩

/-! ## C7 -/

/-- C7: `p & q & r` parses to the right-nested AST `AND(p, AND(q, r))`,
rendered as `(p & (q & r))`, and for every assignment of p, q, r its
evaluation agrees with the left-nested AST `AND(AND(p, q), r)`. -/
theorem c7_equal_precedence_right_nesting :
    compile (toksOf "p & q & r") =
      .ok ⟨none, some astC7R, [bts "p", bts "q", bts "r"]⟩
    ∧ (subexpression_groups astC7R).bind
        (fun gs => groups_to_string gs [bts "p", bts "q", bts "r"]) =
        some [bts "(p & (q & r))"]
    ∧ ∀ vp vq vr : Bool,
        (subexpression_groups astC7R).bind (fun gs => evaluate gs [vp, vq, vr] [false]) =
        (subexpression_groups astC7L).bind (fun gs => evaluate gs [vp, vq, vr] [false]) :=
  ⟨by decide, by decide, by decide⟩

/-! ## Scanner totality on ASCII input (C10) -/

theorem getD_mem_of_lt {l : List Nat} {i : Nat} (h : i < l.length) :
    l.getD i 0 ∈ l := by
  induction l generalizing i with
  | nil => simp at h
  | cons a t ih =>
    cases i with
    | zero => simp [List.getD]
    | succ j =>
      simp only [List.getD_cons_succ]
      exact List.mem_cons_of_mem a (ih (by simpa using h))

/-- In an all-ASCII byte string every index up to the length is a
character boundary. -/
theorem ascii_isCharBoundary {src : List Nat} (hsrc : ∀ b ∈ src, b < 128)
    {i : Nat} (h : i ≤ src.length) : isCharBoundary src i = true := by
  unfold isCharBoundary
  rcases Nat.lt_or_ge i src.length with hlt | hge
  · have hb := hsrc _ (getD_mem_of_lt hlt)
    simp only [Bool.or_eq_true, beq_iff_eq, Bool.and_eq_true, decide_eq_true_eq,
      Bool.not_eq_true']
    right
    refine ⟨hlt, ?_⟩
    simp only [Bool.and_eq_false_iff]
    left
    simp only [decide_eq_false_iff_not]
    omega
  · have : i = src.length := le_antisymm h hge
    simp [this]

/-- On an all-ASCII byte string `make_token` never panics. -/
theorem make_token_ascii {src : List Nat} (hsrc : ∀ b ∈ src, b < 128)
    {start next : Nat} (h1 : start ≤ next) (h2 : next ≤ src.length) (tt : TokenType) :
    make_token src start next tt = some ⟨(src.drop start).take (next - start), tt⟩ := by
  unfold make_token
  rw [ascii_isCharBoundary hsrc (le_trans h1 h2), ascii_isCharBoundary hsrc h2]
  simp [h1]

theorem identLen_le (l : List Nat) : identLen l ≤ l.length := by
  induction l with
  | nil => simp [identLen]
  | cons b t ih =>
    unfold identLen
    split
    · simp only [List.length_cons]
      omega
    · simp


/-- On all-ASCII input a scanning step never panics: it produces a step
result whose new position strictly advances and stays within bounds. -/
theorem scanStep_ascii {src : List Nat} (hsrc : ∀ b ∈ src, b < 128)
    {next : Nat} (hlt : next < src.length) :
    ∃ r, scanStep src next = some r ∧ next < r.2 ∧ r.2 ≤ src.length := by
  have hident : next + 1 + identLen (src.drop (next + 1)) ≤ src.length := by
    have := identLen_le (src.drop (next + 1))
    simp only [List.length_drop] at this
    omega
  unfold scanStep
  by_cases h1 : (src.getD next 0 == 32 || src.getD next 0 == 9 || src.getD next 0 == 10) = true
  · rw [if_pos h1]
    exact ⟨_, rfl, by dsimp only; omega, by dsimp only; omega⟩
  rw [if_neg h1]
  by_cases h2 : (src.getD next 0 == 38) = true
  · rw [if_pos h2, make_token_ascii hsrc (by omega) (by omega)]
    exact ⟨_, rfl, by dsimp only; omega, by dsimp only; omega⟩
  rw [if_neg h2]
  by_cases h3 : (src.getD next 0 == 124) = true
  · rw [if_pos h3, make_token_ascii hsrc (by omega) (by omega)]
    exact ⟨_, rfl, by dsimp only; omega, by dsimp only; omega⟩
  rw [if_neg h3]
  by_cases h4 : (src.getD next 0 == 33 || src.getD next 0 == 126) = true
  · rw [if_pos h4, make_token_ascii hsrc (by omega) (by omega)]
    exact ⟨_, rfl, by dsimp only; omega, by dsimp only; omega⟩
  rw [if_neg h4]
  by_cases h5 : (src.getD next 0 == 61) = true
  · rw [if_pos h5]
    by_cases h5a : (decide (next + 1 < src.length) && (src.getD (next + 1) 0 == 62)) = true
    · have hb : next + 1 < src.length := by
        simp only [Bool.and_eq_true, decide_eq_true_eq] at h5a
        exact h5a.1
      rw [if_pos h5a, make_token_ascii hsrc (by omega) (by omega)]
      exact ⟨_, rfl, by dsimp only; omega, by dsimp only; omega⟩
    · rw [if_neg h5a, make_token_ascii hsrc (by omega) (by omega)]
      exact ⟨_, rfl, by dsimp only; omega, by dsimp only; omega⟩
  rw [if_neg h5]
  by_cases h6 : (src.getD next 0 == 60) = true
  · rw [if_pos h6]
    by_cases h6a : (decide (next + 1 < src.length) && (src.getD (next + 1) 0 == 61)) = true
    · have hb : next + 1 < src.length := by
        simp only [Bool.and_eq_true, decide_eq_true_eq] at h6a
        exact h6a.1
      rw [if_pos h6a]
      by_cases h6b : (decide (next + 2 < src.length) && (src.getD (next + 2) 0 == 62)) = true
      · have hb2 : next + 2 < src.length := by
          simp only [Bool.and_eq_true, decide_eq_true_eq] at h6b
          exact h6b.1
        rw [if_pos h6b, make_token_ascii hsrc (by omega) (by omega)]
        exact ⟨_, rfl, by dsimp only; omega, by dsimp only; omega⟩
      · rw [if_neg h6b, make_token_ascii hsrc (by omega) (by omega)]
        exact ⟨_, rfl, by dsimp only; omega, by dsimp only; omega⟩
    · rw [if_neg h6a, make_token_ascii hsrc (by omega) (by omega)]
      exact ⟨_, rfl, by dsimp only; omega, by dsimp only; omega⟩
  rw [if_neg h6]
  by_cases h7 : (src.getD next 0 == 40) = true
  · rw [if_pos h7, make_token_ascii hsrc (by omega) (by omega)]
    exact ⟨_, rfl, by dsimp only; omega, by dsimp only; omega⟩
  rw [if_neg h7]
  by_cases h8 : (src.getD next 0 == 41) = true
  · rw [if_pos h8, make_token_ascii hsrc (by omega) (by omega)]
    exact ⟨_, rfl, by dsimp only; omega, by dsimp only; omega⟩
  rw [if_neg h8]
  by_cases h9 : (src.getD next 0 == 123) = true
  · rw [if_pos h9, make_token_ascii hsrc (by omega) (by omega)]
    exact ⟨_, rfl, by dsimp only; omega, by dsimp only; omega⟩
  rw [if_neg h9]
  by_cases h10 : (src.getD next 0 == 125) = true
  · rw [if_pos h10, make_token_ascii hsrc (by omega) (by omega)]
    exact ⟨_, rfl, by dsimp only; omega, by dsimp only; omega⟩
  rw [if_neg h10]
  by_cases h11 : isAsciiAlphabetic (src.getD next 0) = true
  · rw [if_pos h11, make_token_ascii hsrc (by omega) hident]
    exact ⟨_, rfl, by dsimp only; omega, by dsimp only; exact hident⟩
  rw [if_neg h11, make_token_ascii hsrc (by omega) (by omega)]
  exact ⟨_, rfl, by dsimp only; omega, by dsimp only; omega⟩

/-- The scanning loop terminates with an EOF-terminated token list on
all-ASCII input, for any sufficient fuel. -/
theorem tokenizeLoop_ascii {src : List Nat} (hsrc : ∀ b ∈ src, b < 128) :
    ∀ f next acc, next ≤ src.length → src.length - next < f →
      ∃ ts, tokenizeLoop src f next acc = some ts ∧
        ts.getLast? = some ⟨bts "<EOF>", TokenType.EOF⟩ := by
  intro f
  induction f with
  | zero => intro next acc _ h2; omega
  | succ f ih =>
    intro next acc h1 h2
    by_cases hlt : next < src.length
    · obtain ⟨r, hr, hadv, hbound⟩ := scanStep_ascii hsrc hlt
      rw [tokenizeLoop, if_pos hlt, hr]
      obtain ⟨ot, n1⟩ := r
      cases ot with
      | none => exact ih n1 acc hbound (by simp at hadv; omega)
      | some t => exact ih n1 (acc ++ [t]) hbound (by simp at hadv; omega)
    · rw [tokenizeLoop, if_neg hlt]
      exact ⟨_, rfl, by simp⟩

/-- C10: the scanner is total on every ASCII-only byte string (never
panics, and the resulting token list always ends in the EOF token); but
on the two-byte UTF-8 input `[195, 169]` (the letter e-acute) it panics:
the first iteration reads only the first byte and then slices the source
at position 1, in the middle of the character. -/
theorem c10_tokenize_ascii_total_nonascii_panic :
    (∀ src : List Nat, (∀ b ∈ src, b < 128) →
      ∃ ts, tokenize src = some ts ∧
        ts.getLast? = some ⟨bts "<EOF>", TokenType.EOF⟩)
    ∧ tokenize [195, 169] = none := by
  constructor
  · intro src hsrc
    exact tokenizeLoop_ascii hsrc (src.length + 1) 0 [] (by omega) (by omega)
  · decide

/-- Witness for C10 at the ASCII input `p & q` and the non-ASCII input
`[195, 169]`. -/
theorem c10_witness :
    (∀ b ∈ bts "p & q", b < 128)
    ∧ (∃ ts, tokenize (bts "p & q") = some ts ∧
        ts.getLast? = some ⟨bts "<EOF>", TokenType.EOF⟩)
    ∧ tokenize [195, 169] = none :=
  ⟨by decide,
    c10_tokenize_ascii_total_nonascii_panic.1 (bts "p & q") (by decide),
    c10_tokenize_ascii_total_nonascii_panic.2⟩

/-! ## Partitioner theory

`subexpression_groups` is proved equal to a structurally recursive
specification: `ipf` is the marker-indexed postfix sequence (what step 1
of `subexpression_groups` computes), `ilocs` the recorded marker
positions, `resid` the postfix sequence left over once every marked
subexpression's content has been extracted, and `groupsSpec` the list of
extracted groups, in extraction order.  The marker counter `k` numbers
markers in postfix (left-to-right) order and the offset `i` shifts
positions. -/

/-- Number of `Subexpression` operations in the postfix sequence of `t`. -/
def nsubs : ASTNode → Nat
  | .mk0 op => bif op == NodeOperation.Subexpression then 1 else 0
  | .mkL op l => nsubs l + (bif op == NodeOperation.Subexpression then 1 else 0)
  | .mkLR op l r => nsubs l + nsubs r + (bif op == NodeOperation.Subexpression then 1 else 0)
  | .mkR op _ => bif op == NodeOperation.Subexpression then 1 else 0

/-- The postfix sequence of `t` with every `Subexpression` rewritten to
its `IndexedSubexpression` marker, markers numbered from `k` in
left-to-right order. -/
def ipf : ASTNode → Nat → List NodeOperation
  | .mk0 op, k =>
    if op == NodeOperation.Subexpression then [NodeOperation.IndexedSubexpression k] else [op]
  | .mkL op l, k =>
    if op == NodeOperation.Subexpression then
      ipf l k ++ [NodeOperation.IndexedSubexpression (k + nsubs l)]
    else ipf l k ++ [op]
  | .mkLR op l r, k =>
    if op == NodeOperation.Subexpression then
      ipf l k ++ ipf r (k + nsubs l) ++
        [NodeOperation.IndexedSubexpression (k + nsubs l + nsubs r)]
    else ipf l k ++ ipf r (k + nsubs l) ++ [op]
  | .mkR op _, k =>
    if op == NodeOperation.Subexpression then [NodeOperation.IndexedSubexpression k] else [op]

/-- Positions (offset by `i`) of the markers in `ipf t _`. -/
def ilocs : ASTNode → Nat → List Nat
  | .mk0 op, i => if op == NodeOperation.Subexpression then [i] else []
  | .mkL op l, i =>
    if op == NodeOperation.Subexpression then
      ilocs l i ++ [i + (postorder_traversal l).length]
    else ilocs l i
  | .mkLR op l r, i =>
    if op == NodeOperation.Subexpression then
      ilocs l i ++ ilocs r (i + (postorder_traversal l).length) ++
        [i + (postorder_traversal l).length + (postorder_traversal r).length]
    else ilocs l i ++ ilocs r (i + (postorder_traversal l).length)
  | .mkR op _, i => if op == NodeOperation.Subexpression then [i] else []

/-- What remains of `ipf t k` after every marked subexpression's content
has been extracted: each `Subexpression` subtree collapses to its bare
marker. -/
def resid : ASTNode → Nat → List NodeOperation
  | .mk0 op, k =>
    if op == NodeOperation.Subexpression then [NodeOperation.IndexedSubexpression k] else [op]
  | .mkL op l, k =>
    if op == NodeOperation.Subexpression then
      [NodeOperation.IndexedSubexpression (k + nsubs l)]
    else resid l k ++ [op]
  | .mkLR op l r, k =>
    if op == NodeOperation.Subexpression then
      [NodeOperation.IndexedSubexpression (k + nsubs l + nsubs r)]
    else resid l k ++ resid r (k + nsubs l) ++ [op]
  | .mkR op _, k =>
    if op == NodeOperation.Subexpression then [NodeOperation.IndexedSubexpression k] else [op]

/-- The groups extracted for the markers of `t`, in extraction order:
marker `k`'s group is the resid of its subtree (inner markers are
extracted first, in postfix order). -/
def groupsSpec : ASTNode → Nat → List (List NodeOperation)
  | .mk0 _, _ => []
  | .mkL op l, k =>
    if op == NodeOperation.Subexpression then groupsSpec l k ++ [resid l k]
    else groupsSpec l k
  | .mkLR op l r, k =>
    if op == NodeOperation.Subexpression then
      groupsSpec l k ++ groupsSpec r (k + nsubs l) ++
        [resid l k ++ resid r (k + nsubs l)]
    else groupsSpec l k ++ groupsSpec r (k + nsubs l)
  | .mkR _ _, _ => []

/-- Well-formedness of the ASTs the compiler actually builds: binary
operations have both children, unary operations and `Subexpression`
wrappers have a left child only, `VariableDeref` and `Literal` are
leaves, and `IndexedSubexpression` never occurs (only the partitioner
introduces it). -/
def WFb : ASTNode → Bool
  | .mk0 (NodeOperation.VariableDeref _) => true
  | .mk0 (NodeOperation.Literal _) => true
  | .mkL (NodeOperation.UnaryOperation _) l => WFb l
  | .mkL NodeOperation.Subexpression l => WFb l
  | .mkLR (NodeOperation.BinaryOperation _) l r => WFb l && WFb r
  | _ => false

theorem pf_length_pos (t : ASTNode) : 0 < (postorder_traversal t).length := by
  cases t <;> simp [postorder_traversal]

theorem ipf_length (t : ASTNode) (k : Nat) :
    (ipf t k).length = (postorder_traversal t).length := by
  induction t generalizing k with
  | mk0 op => unfold ipf postorder_traversal; split <;> simp
  | mkL op l ihl => unfold ipf postorder_traversal; split <;> simp [ihl]
  | mkLR op l r ihl ihr => unfold ipf postorder_traversal; split <;> simp [ihl, ihr]
  | mkR op r ih => unfold ipf postorder_traversal; split <;> simp

theorem resid_length_le (t : ASTNode) (k : Nat) :
    (resid t k).length ≤ (ipf t k).length := by
  induction t generalizing k with
  | mk0 op => unfold resid ipf; split <;> simp
  | mkL op l ihl =>
    unfold resid ipf; split
    · simp
    · simp only [List.length_append, List.length_singleton]
      have := ihl k
      omega
  | mkLR op l r ihl ihr =>
    unfold resid ipf; split
    · simp
      omega
    · simp only [List.length_append, List.length_singleton]
      have := ihl k
      have := ihr (k + nsubs l)
      omega
  | mkR op r ih => unfold resid ipf; split <;> simp

theorem resid_length_pos (t : ASTNode) (k : Nat) : 0 < (resid t k).length := by
  induction t generalizing k with
  | mk0 op => unfold resid; split <;> simp
  | mkL op l ihl => unfold resid; split <;> simp [ihl]
  | mkLR op l r ihl ihr => unfold resid; split <;> simp [ihl]
  | mkR op r ih => unfold resid; split <;> simp

theorem beq_sub_false {op : NodeOperation} (hop : ¬op = NodeOperation.Subexpression) :
    (op == NodeOperation.Subexpression) = false := beq_eq_false_iff_ne.mpr hop

theorem ilocs_length (t : ASTNode) (i : Nat) : (ilocs t i).length = nsubs t := by
  induction t generalizing i with
  | mk0 op =>
    by_cases hop : op = NodeOperation.Subexpression
    · simp [ilocs, nsubs, hop]
    · simp [ilocs, nsubs, beq_sub_false hop]
  | mkL op l ihl =>
    by_cases hop : op = NodeOperation.Subexpression
    · simp [ilocs, nsubs, hop, ihl]
    · simp [ilocs, nsubs, beq_sub_false hop, ihl]
  | mkLR op l r ihl ihr =>
    by_cases hop : op = NodeOperation.Subexpression
    · simp [ilocs, nsubs, hop, ihl, ihr]
      omega
    · simp [ilocs, nsubs, beq_sub_false hop, ihl, ihr]
  | mkR op r ih =>
    by_cases hop : op = NodeOperation.Subexpression
    · simp [ilocs, nsubs, hop]
    · simp [ilocs, nsubs, beq_sub_false hop]

/-- The marker-indexing scan acts on the postfix sequence of a tree (with
any continuation) exactly as `ipf`/`ilocs` describe. -/
theorem indexSubs_tree (t : ASTNode) : ∀ B i k,
    indexSubs (postorder_traversal t ++ B) i k =
      (ipf t k ++ (indexSubs B (i + (postorder_traversal t).length) (k + nsubs t)).1,
       ilocs t i ++ (indexSubs B (i + (postorder_traversal t).length) (k + nsubs t)).2) := by
  induction t with
  | mk0 op =>
    intro B i k
    by_cases hop : (op == NodeOperation.Subexpression) = true
    · simp [postorder_traversal, indexSubs, ipf, ilocs, nsubs, hop]
    · simp [postorder_traversal, indexSubs, ipf, ilocs, nsubs, hop]
  | mkR op r ih =>
    intro B i k
    by_cases hop : (op == NodeOperation.Subexpression) = true
    · simp [postorder_traversal, indexSubs, ipf, ilocs, nsubs, hop]
    · simp [postorder_traversal, indexSubs, ipf, ilocs, nsubs, hop]
  | mkL op l ihl =>
    intro B i k
    have h1 : postorder_traversal (ASTNode.mkL op l) ++ B =
        postorder_traversal l ++ ([op] ++ B) := by
      simp [postorder_traversal]
    rw [h1, ihl]
    by_cases hop : (op == NodeOperation.Subexpression) = true
    · simp [indexSubs, ipf, ilocs, nsubs, postorder_traversal, hop, Nat.add_assoc]
    · simp [indexSubs, ipf, ilocs, nsubs, postorder_traversal, hop, Nat.add_assoc]
  | mkLR op l r ihl ihr =>
    intro B i k
    have h1 : postorder_traversal (ASTNode.mkLR op l r) ++ B =
        postorder_traversal l ++ (postorder_traversal r ++ ([op] ++ B)) := by
      simp [postorder_traversal]
    rw [h1, ihl, ihr]
    by_cases hop : (op == NodeOperation.Subexpression) = true
    · simp [indexSubs, ipf, ilocs, nsubs, postorder_traversal, hop, Nat.add_assoc]
    · simp [indexSubs, ipf, ilocs, nsubs, postorder_traversal, hop, Nat.add_assoc]

/-- Step 1 of `subexpression_groups` computes `ipf` and `ilocs`. -/
theorem indexSubs_eq (t : ASTNode) :
    indexSubs (postorder_traversal t) 0 0 = (ipf t 0, ilocs t 0) := by
  have h := indexSubs_tree t [] 0 0
  simpa [indexSubs] using h


/-- Walking backward through the residual of a well-formed subtree with
starting requirement `r + 1` consumes exactly the residual (the running
requirement never reaches zero strictly inside it) and continues with
requirement `r`. -/
theorem bGo_resid (t : ASTNode) (h : WFb t = true) :
    ∀ k T r, backtrackGo ((resid t k).reverse ++ T) (r + 1) =
      (backtrackGo T r).map (· + (resid t k).length) := by
  induction t with
  | mk0 op =>
    intro k T r
    match op, h with
    | NodeOperation.VariableDeref i, _ =>
      simp [resid, backtrackGo, op_backtrack_size]
    | NodeOperation.Literal b, _ =>
      simp [resid, backtrackGo, op_backtrack_size]
  | mkL op l ihl =>
    intro k T r
    match op, h with
    | NodeOperation.UnaryOperation u, h =>
      have hwl : WFb l = true := by simpa [WFb] using h
      have hres : resid (ASTNode.mkL (NodeOperation.UnaryOperation u) l) k =
          resid l k ++ [NodeOperation.UnaryOperation u] := by simp [resid]
      rw [hres, List.reverse_append]
      simp only [List.reverse_cons, List.reverse_nil, List.nil_append, List.cons_append]
      rw [backtrackGo]
      simp only [op_backtrack_size]
      rw [ihl hwl k T r]
      cases backtrackGo T r
      · simp
      · simp
        omega
    | NodeOperation.Subexpression, h =>
      simp [resid, backtrackGo, op_backtrack_size]
  | mkLR op l r0 ihl ihr =>
    intro k T r
    match op, h with
    | NodeOperation.BinaryOperation b, h =>
      simp only [WFb, Bool.and_eq_true] at h
      obtain ⟨hwl, hwr⟩ := h
      have hres : resid (ASTNode.mkLR (NodeOperation.BinaryOperation b) l r0) k =
          resid l k ++ resid r0 (k + nsubs l) ++ [NodeOperation.BinaryOperation b] := by
        simp [resid]
      rw [hres, List.reverse_append, List.reverse_append]
      simp only [List.reverse_cons, List.reverse_nil, List.nil_append, List.cons_append,
        List.append_assoc]
      rw [backtrackGo]
      simp only [op_backtrack_size]
      have h2 : r + 2 = (r + 1) + 1 := rfl
      rw [h2, ihr hwr (k + nsubs l) ((resid l k).reverse ++ T) (r + 1), ihl hwl k T r]
      cases backtrackGo T r
      · simp
      · simp
        omega
  | mkR op r0 ih =>
    intro k T r
    simp [WFb] at h

/-- `subexpression_backtrack_size`, asked at the position just past the
residual of a well-formed subtree, returns exactly the residual's
length. -/
theorem backtrack_at_resid (t : ASTNode) (h : WFb t = true) (k : Nat)
    (X T : List NodeOperation) :
    subexpression_backtrack_size (X ++ resid t k ++ T)
        (X.length + (resid t k).length) = some (resid t k).length := by
  unfold subexpression_backtrack_size
  have hle : X.length + (resid t k).length ≤ (X ++ resid t k ++ T).length := by
    simp [List.length_append]
  rw [if_pos hle]
  have htake : (X ++ resid t k ++ T).take (X.length + (resid t k).length) =
      X ++ resid t k := by
    rw [List.append_assoc X (resid t k) T]
    rw [show X.length + (resid t k).length = (X ++ resid t k).length by simp]
    rw [← List.append_assoc X (resid t k) T]
    exact List.take_left _ _
  rw [htake, List.reverse_append]
  rw [bGo_resid t h k X.reverse 0]
  simp [backtrackGo]

/-- One `sgiStep` at the position just past a well-formed subtree's
residual extracts exactly that residual as the next group. -/
theorem sgiStep_extract (t : ASTNode) (h : WFb t = true) (k : Nat)
    (X T : List NodeOperation) (gs : List (List NodeOperation)) (removed : Nat) :
    sgiStep (X ++ resid t k ++ T, gs, removed)
        (removed + X.length + (resid t k).length) =
      some (X ++ T, gs ++ [resid t k], removed + (resid t k).length) := by
  unfold sgiStep
  dsimp only
  rw [if_neg (by omega)]
  have hl : removed + X.length + (resid t k).length - removed =
      X.length + (resid t k).length := by omega
  rw [hl, backtrack_at_resid t h k X T]
  dsimp only
  have e1 : (X ++ resid t k ++ T).take
      (X.length + (resid t k).length - (resid t k).length) = X := by
    rw [show X.length + (resid t k).length - (resid t k).length = X.length by omega]
    rw [List.append_assoc]
    exact List.take_left _ _
  have e2 : (X ++ resid t k ++ T).drop (X.length + (resid t k).length) = T := by
    rw [show X.length + (resid t k).length = (X ++ resid t k).length by simp]
    exact List.drop_left _ _
  have e3 : ((X ++ resid t k ++ T).drop
      (X.length + (resid t k).length - (resid t k).length)).take
        (resid t k).length = resid t k := by
    rw [show X.length + (resid t k).length - (resid t k).length = X.length by omega]
    rw [List.append_assoc, List.drop_left]
    exact List.take_left _ _
  rw [e1, e2, e3]

theorem sgiLoop_append (l1 l2 : List Nat)
    (st : List NodeOperation × List (List NodeOperation) × Nat) :
    sgiLoop (l1 ++ l2) st =
      match sgiLoop l1 st with
      | none => none
      | some st' => sgiLoop l2 st' := by
  induction l1 generalizing st with
  | nil => simp [sgiLoop]
  | cons a l1 ih =>
    simp only [List.cons_append, sgiLoop]
    cases sgiStep st a
    · simp
    · simp [ih]

/-- Main invariant of the extraction loop: running it over the marker
locations of a well-formed subtree placed after a context `X` (with
`removed` previously drained elements, so the subtree's original offset
is `removed + X.length`) extracts exactly `groupsSpec` and leaves the
subtree's residual in place. -/
theorem sgiSeg (t : ASTNode) (h : WFb t = true) :
    ∀ k X T gs removed,
      sgiLoop (ilocs t (removed + X.length)) (X ++ ipf t k ++ T, gs, removed) =
        some (X ++ resid t k ++ T, gs ++ groupsSpec t k,
              removed + ((ipf t k).length - (resid t k).length)) := by
  induction t with
  | mk0 op =>
    intro k X T gs removed
    match op, h with
    | NodeOperation.VariableDeref i, _ =>
      simp [ilocs, sgiLoop, ipf, resid, groupsSpec]
    | NodeOperation.Literal v, _ =>
      simp [ilocs, sgiLoop, ipf, resid, groupsSpec]
  | mkL op l ihl =>
    intro k X T gs removed
    match op, h with
    | NodeOperation.UnaryOperation u, h =>
      have hwl : WFb l = true := by simpa [WFb] using h
      have hlenl := ipf_length l k
      have hlel := resid_length_le l k
      have hilocs : ilocs (ASTNode.mkL (NodeOperation.UnaryOperation u) l)
          (removed + X.length) = ilocs l (removed + X.length) := by simp [ilocs]
      have hstate : X ++ ipf (ASTNode.mkL (NodeOperation.UnaryOperation u) l) k ++ T =
          X ++ ipf l k ++ ([NodeOperation.UnaryOperation u] ++ T) := by
        simp [ipf, List.append_assoc]
      rw [hilocs, hstate]
      rw [ihl hwl k X ([NodeOperation.UnaryOperation u] ++ T) gs removed]
      simp [resid, groupsSpec, ipf, List.append_assoc, Prod.ext_iff]
    | NodeOperation.Subexpression, h =>
      have hwl : WFb l = true := by simpa [WFb] using h
      have hlenl := ipf_length l k
      have hlel := resid_length_le l k
      have hilocs : ilocs (ASTNode.mkL NodeOperation.Subexpression l)
          (removed + X.length) =
          ilocs l (removed + X.length) ++
            [removed + X.length + (postorder_traversal l).length] := by
        simp [ilocs]
      have hstate : X ++ ipf (ASTNode.mkL NodeOperation.Subexpression l) k ++ T =
          X ++ ipf l k ++ ([NodeOperation.IndexedSubexpression (k + nsubs l)] ++ T) := by
        simp [ipf, List.append_assoc]
      rw [hilocs, hstate, sgiLoop_append]
      rw [ihl hwl k X ([NodeOperation.IndexedSubexpression (k + nsubs l)] ++ T) gs removed]
      dsimp only
      have hloc : removed + X.length + (postorder_traversal l).length =
          (removed + ((ipf l k).length - (resid l k).length)) + X.length +
            (resid l k).length := by omega
      rw [hloc]
      simp only [sgiLoop]
      rw [sgiStep_extract l hwl k X
            ([NodeOperation.IndexedSubexpression (k + nsubs l)] ++ T)
            (gs ++ groupsSpec l k)
            (removed + ((ipf l k).length - (resid l k).length))]
      simp [resid, groupsSpec, ipf, List.append_assoc, Prod.ext_iff]
      omega
  | mkLR op l r0 ihl ihr =>
    intro k X T gs removed
    match op, h with
    | NodeOperation.BinaryOperation b, h =>
      simp only [WFb, Bool.and_eq_true] at h
      obtain ⟨hwl, hwr⟩ := h
      have hlenl := ipf_length l k
      have hlel := resid_length_le l k
      have hlenr := ipf_length r0 (k + nsubs l)
      have hler := resid_length_le r0 (k + nsubs l)
      have hilocs : ilocs (ASTNode.mkLR (NodeOperation.BinaryOperation b) l r0)
          (removed + X.length) =
          ilocs l (removed + X.length) ++
            ilocs r0 (removed + X.length + (postorder_traversal l).length) := by
        simp [ilocs]
      have hstate : X ++ ipf (ASTNode.mkLR (NodeOperation.BinaryOperation b) l r0) k ++ T =
          X ++ ipf l k ++
            (ipf r0 (k + nsubs l) ++ ([NodeOperation.BinaryOperation b] ++ T)) := by
        simp [ipf, List.append_assoc]
      rw [hilocs, hstate, sgiLoop_append]
      rw [ihl hwl k X (ipf r0 (k + nsubs l) ++ ([NodeOperation.BinaryOperation b] ++ T))
            gs removed]
      dsimp only
      have hoff : removed + X.length + (postorder_traversal l).length =
          (removed + ((ipf l k).length - (resid l k).length)) +
            (X ++ resid l k).length := by
        simp only [List.length_append]
        omega
      rw [hoff]
      have hstate2 : X ++ resid l k ++
            (ipf r0 (k + nsubs l) ++ ([NodeOperation.BinaryOperation b] ++ T)) =
          (X ++ resid l k) ++ ipf r0 (k + nsubs l) ++
            ([NodeOperation.BinaryOperation b] ++ T) := by
        simp [List.append_assoc]
      rw [hstate2]
      rw [ihr hwr (k + nsubs l) (X ++ resid l k) ([NodeOperation.BinaryOperation b] ++ T)
            (gs ++ groupsSpec l k) (removed + ((ipf l k).length - (resid l k).length))]
      simp [resid, groupsSpec, ipf, List.append_assoc, Prod.ext_iff]
      omega
  | mkR op r0 ih =>
    intro k X T gs removed
    simp [WFb] at h

theorem ilocs_lt (t : ASTNode) : ∀ i x, x ∈ ilocs t i → x < i + (postorder_traversal t).length := by
  induction t with
  | mk0 op =>
    intro i x hx
    by_cases hop : op = NodeOperation.Subexpression
    · simp [ilocs, hop] at hx
      simp [hx, postorder_traversal]
    · simp [ilocs, beq_sub_false hop] at hx
  | mkL op l ihl =>
    intro i x hx
    by_cases hop : op = NodeOperation.Subexpression
    · simp only [ilocs, hop] at hx
      simp only [beq_self_eq_true, if_pos] at hx
      rw [List.mem_append] at hx
      rcases hx with hx | hx
      · have := ihl i x hx
        simp [postorder_traversal]
        omega
      · simp at hx
        simp [hx, postorder_traversal]
    · simp only [ilocs, beq_sub_false hop, Bool.false_eq_true, if_false] at hx
      have := ihl i x hx
      simp [postorder_traversal]
      omega
  | mkLR op l r0 ihl ihr =>
    intro i x hx
    by_cases hop : op = NodeOperation.Subexpression
    · simp only [ilocs, hop, beq_self_eq_true, if_pos] at hx
      rw [List.mem_append, List.mem_append] at hx
      rcases hx with (hx | hx) | hx
      · have := ihl i x hx
        simp [postorder_traversal]
        omega
      · have := ihr (i + (postorder_traversal l).length) x hx
        simp [postorder_traversal]
        omega
      · simp at hx
        simp [hx, postorder_traversal]
        omega
    · simp only [ilocs, beq_sub_false hop, Bool.false_eq_true, if_false,
        List.mem_append] at hx
      rcases hx with hx | hx
      · have := ihl i x hx
        simp [postorder_traversal]
        omega
      · have := ihr (i + (postorder_traversal l).length) x hx
        simp [postorder_traversal]
        omega
  | mkR op r0 ih =>
    intro i x hx
    by_cases hop : op = NodeOperation.Subexpression
    · simp [ilocs, hop] at hx
      simp [hx, postorder_traversal]
    · simp [ilocs, beq_sub_false hop] at hx

/-- For an AST whose root is not a `Subexpression`, no marker sits at the
final position of the postfix sequence. -/
theorem ilocs_root_lt (t : ASTNode) (hop : t.op ≠ NodeOperation.Subexpression) :
    ∀ x ∈ ilocs t 0, x + 1 < (postorder_traversal t).length := by
  cases t with
  | mk0 op =>
    intro x hx
    simp only [ASTNode.op] at hop
    simp [ilocs, beq_sub_false hop] at hx
  | mkL op l =>
    intro x hx
    simp only [ASTNode.op] at hop
    simp only [ilocs, beq_sub_false hop, Bool.false_eq_true, if_false] at hx
    have := ilocs_lt l 0 x hx
    simp [postorder_traversal]
    omega
  | mkLR op l r0 =>
    intro x hx
    simp only [ASTNode.op] at hop
    simp only [ilocs, beq_sub_false hop, Bool.false_eq_true, if_false,
      List.mem_append] at hx
    have hr := pf_length_pos r0
    rcases hx with hx | hx
    · have := ilocs_lt l 0 x hx
      simp [postorder_traversal]
      omega
    · have := ilocs_lt r0 (0 + (postorder_traversal l).length) x hx
      simp [postorder_traversal]
      simp at this
      omega
  | mkR op r0 =>
    intro x hx
    simp only [ASTNode.op] at hop
    simp [ilocs, beq_sub_false hop] at hx

/-- Under a well-formed `Subexpression` root the last recorded marker is
at the final position of the postfix sequence. -/
theorem ilocs_root_sub (t : ASTNode) (h : WFb t = true)
    (hop : t.op = NodeOperation.Subexpression) :
    (ilocs t 0).getLast? = some ((postorder_traversal t).length - 1) := by
  cases t with
  | mk0 op => simp only [ASTNode.op] at hop; simp [hop, WFb] at h
  | mkR op r0 => simp [WFb] at h
  | mkLR op l r0 =>
    simp only [ASTNode.op] at hop
    rw [hop] at h
    simp [WFb] at h
  | mkL op l =>
    simp only [ASTNode.op] at hop
    subst hop
    simp only [ilocs, beq_self_eq_true, if_true]
    rw [List.getLast?_concat]
    simp [postorder_traversal]

/-- `subexpression_groups` computes exactly the recursive specification:
the groups of the marked subexpressions in order, followed by the
whole-expression residual group unless the root itself is a marked
subexpression (in which case the last marker group already covers the
whole expression). -/
theorem subexpression_groups_spec (t : ASTNode) (h : WFb t = true) :
    subexpression_groups t =
      some (if t.op == NodeOperation.Subexpression then groupsSpec t 0
            else groupsSpec t 0 ++ [resid t 0]) := by
  have hlen := ipf_length t 0
  have hle := resid_length_le t 0
  have hpos := pf_length_pos t
  unfold subexpression_groups
  dsimp only
  rw [indexSubs_eq]
  dsimp only
  by_cases hop : t.op = NodeOperation.Subexpression
  · rw [ilocs_root_sub t h hop]
    simp only [hop, beq_self_eq_true, if_true]
    unfold subexpression_groups_impl
    have hseg := sgiSeg t h 0 [] [] [] 0
    simp only [List.length_nil, Nat.add_zero, List.nil_append, List.append_nil,
      Nat.zero_add] at hseg
    rw [hseg]
    rfl
  · simp only [beq_sub_false hop, Bool.false_eq_true, if_false]
    have happend :
        subexpression_groups_impl
            (ipf t 0 ++ [NodeOperation.IndexedSubexpression (ilocs t 0).length])
            (ilocs t 0 ++ [(postorder_traversal t).length]) =
          some (groupsSpec t 0 ++ [resid t 0]) := by
      rw [ilocs_length t 0]
      unfold subexpression_groups_impl
      rw [sgiLoop_append]
      have hseg := sgiSeg t h 0 [] [NodeOperation.IndexedSubexpression (nsubs t)] [] 0
      simp only [List.length_nil, Nat.add_zero, List.nil_append, Nat.zero_add] at hseg
      rw [hseg]
      dsimp only
      rw [show (postorder_traversal t).length =
            ((ipf t 0).length - (resid t 0).length) + (resid t 0).length by omega]
      simp only [sgiLoop]
      have hx := sgiStep_extract t h 0 []
        [NodeOperation.IndexedSubexpression (nsubs t)] (groupsSpec t 0)
        ((ipf t 0).length - (resid t 0).length)
      simp only [List.length_nil, Nat.add_zero, List.nil_append] at hx
      rw [hx]
      rfl
    cases hlast : (ilocs t 0).getLast? with
    | none => exact happend
    | some v =>
      have hv : v ∈ ilocs t 0 := List.mem_of_mem_getLast? (by simp [hlast])
      have hlt := ilocs_root_lt t hop v hv
      have hne : (v == (postorder_traversal t).length - 1) = false :=
        beq_eq_false_iff_ne.mpr (by omega)
      simp only [hne, Bool.false_eq_true, if_false]
      exact happend

/-! ## Parser state invariants -/

theorem findIdx?_lt_length {α : Type} (p : α → Bool) (l : List α) (i : Nat)
    (h : l.findIdx? p = some i) : i < l.length := by
  induction l generalizing i with
  | nil => simp [List.findIdx?] at h
  | cons a t ih =>
    rw [List.findIdx?_cons] at h
    simp only [List.length_cons]
    by_cases hp : p a
    · simp [hp] at h
      omega
    · simp [hp] at h
      obtain ⟨j, hj, rfl⟩ := h
      have := ih _ hj
      omega

/-- All variable dereferences in `t` point below `n`. -/
def DerefsLT (t : ASTNode) (n : Nat) : Prop :=
  ∀ i, NodeOperation.VariableDeref i ∈ postorder_traversal t → i < n

theorem DerefsLT_mono {t : ASTNode} {n m : Nat} (h : DerefsLT t n) (hnm : n ≤ m) :
    DerefsLT t m :=
  fun i hi => lt_of_lt_of_le (h i hi) hnm

/-- Invariant of the parser state: every tree on the node stack is
well-formed and dereferences only interned variables. -/
def GoodState (st : CState) : Prop :=
  ∀ t ∈ st.ns, WFb t = true ∧ DerefsLT t st.vars.length

theorem create_preserves {n : Nat} (ns : List ASTNode)
    (hns : ∀ t ∈ ns, WFb t = true ∧ DerefsLT t n) (op : OperatorType)
    (res : Option ASTNode) (ns' : List ASTNode)
    (h : create_operation_node ns op = .ok (res, ns')) :
    (∀ t ∈ ns', WFb t = true ∧ DerefsLT t n) ∧
    (∀ t, res = some t → WFb t = true ∧ DerefsLT t n) := by
  cases op with
  | CNDL => simp [create_operation_node] at h
  | BI_CNDL => simp [create_operation_node] at h
  | NOT =>
    rcases ns with _ | ⟨left, rest⟩
    · simp only [create_operation_node, Except.ok.injEq, Prod.mk.injEq] at h
      obtain ⟨rfl, rfl⟩ := h
      exact ⟨by simp, by simp⟩
    · simp only [create_operation_node, Except.ok.injEq, Prod.mk.injEq] at h
      obtain ⟨rfl, rfl⟩ := h
      have hl := hns left (by simp)
      refine ⟨fun t ht => hns t (by simp [ht]), fun t ht => ?_⟩
      obtain rfl : ASTNode.mkL (NodeOperation.UnaryOperation OperatorType.NOT) left = t := by
        simpa using ht
      refine ⟨by simp [WFb, hl.1], ?_⟩
      intro i hi
      simp only [postorder_traversal, List.mem_append, List.mem_singleton] at hi
      rcases hi with hi | hi
      · exact hl.2 i hi
      · cases hi
  | AND =>
    rcases ns with _ | ⟨right, _ | ⟨left, rest⟩⟩
    · simp only [create_operation_node, Except.ok.injEq, Prod.mk.injEq] at h
      obtain ⟨rfl, rfl⟩ := h
      exact ⟨by simp, by simp⟩
    · simp only [create_operation_node, Except.ok.injEq, Prod.mk.injEq] at h
      obtain ⟨rfl, rfl⟩ := h
      exact ⟨by simp, by simp⟩
    · simp only [create_operation_node, Except.ok.injEq, Prod.mk.injEq] at h
      obtain ⟨rfl, rfl⟩ := h
      have hl := hns left (by simp)
      have hr := hns right (by simp)
      refine ⟨fun t ht => hns t (by simp [ht]), fun t ht => ?_⟩
      obtain rfl : ASTNode.mkLR (NodeOperation.BinaryOperation OperatorType.AND) left right
          = t := by simpa using ht
      refine ⟨by simp [WFb, hl.1, hr.1], ?_⟩
      intro i hi
      simp only [postorder_traversal, List.mem_append, List.mem_singleton,
        List.append_assoc] at hi
      rcases hi with hi | hi | hi
      · exact hl.2 i hi
      · exact hr.2 i hi
      · cases hi
  | OR =>
    rcases ns with _ | ⟨right, _ | ⟨left, rest⟩⟩
    · simp only [create_operation_node, Except.ok.injEq, Prod.mk.injEq] at h
      obtain ⟨rfl, rfl⟩ := h
      exact ⟨by simp, by simp⟩
    · simp only [create_operation_node, Except.ok.injEq, Prod.mk.injEq] at h
      obtain ⟨rfl, rfl⟩ := h
      exact ⟨by simp, by simp⟩
    · simp only [create_operation_node, Except.ok.injEq, Prod.mk.injEq] at h
      obtain ⟨rfl, rfl⟩ := h
      have hl := hns left (by simp)
      have hr := hns right (by simp)
      refine ⟨fun t ht => hns t (by simp [ht]), fun t ht => ?_⟩
      obtain rfl : ASTNode.mkLR (NodeOperation.BinaryOperation OperatorType.OR) left right
          = t := by simpa using ht
      refine ⟨by simp [WFb, hl.1, hr.1], ?_⟩
      intro i hi
      simp only [postorder_traversal, List.mem_append, List.mem_singleton,
        List.append_assoc] at hi
      rcases hi with hi | hi | hi
      · exact hl.2 i hi
      · exact hr.2 i hi
      · cases hi

theorem opWhile_preserves {n : Nat} (cur : OperatorType) :
    ∀ (os : List TokenType) (ns : List ASTNode),
      (∀ t ∈ ns, WFb t = true ∧ DerefsLT t n) →
      ∀ ns' os' err, opWhile cur ns os = .ok (ns', os', err) →
      ∀ t ∈ ns', WFb t = true ∧ DerefsLT t n := by
  intro os
  induction os with
  | nil =>
    intro ns hns ns' os' err h
    simp only [opWhile, Except.ok.injEq, Prod.mk.injEq] at h
    obtain ⟨rfl, -, -⟩ := h
    exact hns
  | cons top rest ih =>
    intro ns hns ns' os' err h
    cases top with
    | Operator target =>
      rw [opWhile] at h
      cases hsp : stash_prev_op cur target with
      | none => rw [hsp] at h; cases h
      | some b =>
        rw [hsp] at h
        cases b with
        | false =>
          simp only [Except.ok.injEq, Prod.mk.injEq] at h
          obtain ⟨rfl, -, -⟩ := h
          exact hns
        | true =>
          cases hc : create_operation_node ns target with
          | error c => rw [hc] at h; cases h
          | ok pair =>
            obtain ⟨resx, nsx⟩ := pair
            rw [hc] at h
            have hp := create_preserves ns hns target resx nsx hc
            cases resx with
            | none =>
              simp only [Except.ok.injEq, Prod.mk.injEq] at h
              obtain ⟨rfl, -, -⟩ := h
              exact hp.1
            | some node =>
              refine ih (node :: nsx) ?_ ns' os' err h
              intro t ht
              rcases List.mem_cons.mp ht with rfl | ht
              · exact hp.2 t rfl
              · exact hp.1 t ht
    | Variable =>
      simp only [opWhile, Except.ok.injEq, Prod.mk.injEq] at h
      obtain ⟨rfl, -, -⟩ := h
      exact hns
    | Literal v =>
      simp only [opWhile, Except.ok.injEq, Prod.mk.injEq] at h
      obtain ⟨rfl, -, -⟩ := h
      exact hns
    | LeftParen =>
      simp only [opWhile, Except.ok.injEq, Prod.mk.injEq] at h
      obtain ⟨rfl, -, -⟩ := h
      exact hns
    | RightParen =>
      simp only [opWhile, Except.ok.injEq, Prod.mk.injEq] at h
      obtain ⟨rfl, -, -⟩ := h
      exact hns
    | LeftBrace =>
      simp only [opWhile, Except.ok.injEq, Prod.mk.injEq] at h
      obtain ⟨rfl, -, -⟩ := h
      exact hns
    | RightBrace =>
      simp only [opWhile, Except.ok.injEq, Prod.mk.injEq] at h
      obtain ⟨rfl, -, -⟩ := h
      exact hns
    | Error =>
      simp only [opWhile, Except.ok.injEq, Prod.mk.injEq] at h
      obtain ⟨rfl, -, -⟩ := h
      exact hns
    | EOF =>
      simp only [opWhile, Except.ok.injEq, Prod.mk.injEq] at h
      obtain ⟨rfl, -, -⟩ := h
      exact hns

theorem closeWhile_preserves {n : Nat} (tt : TokenType) :
    ∀ (os : List TokenType) (ns : List ASTNode),
      (∀ t ∈ ns, WFb t = true ∧ DerefsLT t n) →
      ∀ ns' os' err, closeWhile tt ns os = .ok (ns', os', err) →
      ∀ t ∈ ns', WFb t = true ∧ DerefsLT t n := by
  intro os
  induction os with
  | nil =>
    intro ns hns ns' os' err h
    simp only [closeWhile, Except.ok.injEq, Prod.mk.injEq] at h
    obtain ⟨rfl, -, -⟩ := h
    exact hns
  | cons top rest ih =>
    intro ns hns ns' os' err h
    have hgen : ∀ (P : Prop), P → P := fun _ p => p
    cases top with
    | Operator op =>
      rw [closeWhile] at h
      cases hc : create_operation_node ns op with
      | error c => rw [hc] at h; cases h
      | ok pair =>
        obtain ⟨resx, nsx⟩ := pair
        rw [hc] at h
        have hp := create_preserves ns hns op resx nsx hc
        cases resx with
        | none =>
          simp only [Except.ok.injEq, Prod.mk.injEq] at h
          obtain ⟨rfl, -, -⟩ := h
          exact hp.1
        | some node =>
          refine ih (node :: nsx) ?_ ns' os' err h
          intro t ht
          rcases List.mem_cons.mp ht with rfl | ht
          · exact hp.2 t rfl
          · exact hp.1 t ht
    | LeftParen =>
      rw [closeWhile.eq_def] at h
      dsimp only at h
      split at h
      · simp only [Except.ok.injEq, Prod.mk.injEq] at h
        obtain ⟨rfl, -, -⟩ := h
        exact hns
      · split at h
        · rcases ns with _ | ⟨nd, ns2⟩
          · simp only [Except.ok.injEq, Prod.mk.injEq] at h
            obtain ⟨rfl, -, -⟩ := h
            exact hns
          · dsimp only at h
            by_cases hsub : (nd.op == NodeOperation.Subexpression) = true
            · rw [if_pos hsub] at h
              simp only [Except.ok.injEq, Prod.mk.injEq] at h
              obtain ⟨rfl, -, -⟩ := h
              exact hns
            · rw [if_neg hsub] at h
              simp only [Except.ok.injEq, Prod.mk.injEq] at h
              obtain ⟨rfl, -, -⟩ := h
              intro t ht
              rcases List.mem_cons.mp ht with rfl | ht
              · have hnd := hns nd (by simp)
                refine ⟨by simp [WFb, hnd.1], ?_⟩
                intro i hi
                simp only [postorder_traversal, List.mem_append,
                  List.mem_singleton] at hi
                rcases hi with hi | hi
                · exact hnd.2 i hi
                · cases hi
              · exact hns t (by simp [ht])
        · simp only [Except.ok.injEq, Prod.mk.injEq] at h
          obtain ⟨rfl, -, -⟩ := h
          exact hns
    | LeftBrace =>
      rw [closeWhile.eq_def] at h
      dsimp only at h
      split at h
      · simp only [Except.ok.injEq, Prod.mk.injEq] at h
        obtain ⟨rfl, -, -⟩ := h
        exact hns
      · split at h
        · rcases ns with _ | ⟨nd, ns2⟩
          · simp only [Except.ok.injEq, Prod.mk.injEq] at h
            obtain ⟨rfl, -, -⟩ := h
            exact hns
          · dsimp only at h
            by_cases hsub : (nd.op == NodeOperation.Subexpression) = true
            · rw [if_pos hsub] at h
              simp only [Except.ok.injEq, Prod.mk.injEq] at h
              obtain ⟨rfl, -, -⟩ := h
              exact hns
            · rw [if_neg hsub] at h
              simp only [Except.ok.injEq, Prod.mk.injEq] at h
              obtain ⟨rfl, -, -⟩ := h
              intro t ht
              rcases List.mem_cons.mp ht with rfl | ht
              · have hnd := hns nd (by simp)
                refine ⟨by simp [WFb, hnd.1], ?_⟩
                intro i hi
                simp only [postorder_traversal, List.mem_append,
                  List.mem_singleton] at hi
                rcases hi with hi | hi
                · exact hnd.2 i hi
                · cases hi
              · exact hns t (by simp [ht])
        · simp only [Except.ok.injEq, Prod.mk.injEq] at h
          obtain ⟨rfl, -, -⟩ := h
          exact hns
    | Variable =>
      rw [closeWhile.eq_def] at h
      dsimp only at h
      split at h
      · simp only [Except.ok.injEq, Prod.mk.injEq] at h
        obtain ⟨rfl, -, -⟩ := h
        exact hns
      · split at h
        · rcases ns with _ | ⟨nd, ns2⟩
          · simp only [Except.ok.injEq, Prod.mk.injEq] at h
            obtain ⟨rfl, -, -⟩ := h
            exact hns
          · dsimp only at h
            by_cases hsub : (nd.op == NodeOperation.Subexpression) = true
            · rw [if_pos hsub] at h
              simp only [Except.ok.injEq, Prod.mk.injEq] at h
              obtain ⟨rfl, -, -⟩ := h
              exact hns
            · rw [if_neg hsub] at h
              simp only [Except.ok.injEq, Prod.mk.injEq] at h
              obtain ⟨rfl, -, -⟩ := h
              intro t ht
              rcases List.mem_cons.mp ht with rfl | ht
              · have hnd := hns nd (by simp)
                refine ⟨by simp [WFb, hnd.1], ?_⟩
                intro i hi
                simp only [postorder_traversal, List.mem_append,
                  List.mem_singleton] at hi
                rcases hi with hi | hi
                · exact hnd.2 i hi
                · cases hi
              · exact hns t (by simp [ht])
        · simp only [Except.ok.injEq, Prod.mk.injEq] at h
          obtain ⟨rfl, -, -⟩ := h
          exact hns
    | Literal v =>
      rw [closeWhile.eq_def] at h
      dsimp only at h
      split at h
      · simp only [Except.ok.injEq, Prod.mk.injEq] at h
        obtain ⟨rfl, -, -⟩ := h
        exact hns
      · split at h
        · rcases ns with _ | ⟨nd, ns2⟩
          · simp only [Except.ok.injEq, Prod.mk.injEq] at h
            obtain ⟨rfl, -, -⟩ := h
            exact hns
          · dsimp only at h
            by_cases hsub : (nd.op == NodeOperation.Subexpression) = true
            · rw [if_pos hsub] at h
              simp only [Except.ok.injEq, Prod.mk.injEq] at h
              obtain ⟨rfl, -, -⟩ := h
              exact hns
            · rw [if_neg hsub] at h
              simp only [Except.ok.injEq, Prod.mk.injEq] at h
              obtain ⟨rfl, -, -⟩ := h
              intro t ht
              rcases List.mem_cons.mp ht with rfl | ht
              · have hnd := hns nd (by simp)
                refine ⟨by simp [WFb, hnd.1], ?_⟩
                intro i hi
                simp only [postorder_traversal, List.mem_append,
                  List.mem_singleton] at hi
                rcases hi with hi | hi
                · exact hnd.2 i hi
                · cases hi
              · exact hns t (by simp [ht])
        · simp only [Except.ok.injEq, Prod.mk.injEq] at h
          obtain ⟨rfl, -, -⟩ := h
          exact hns
    | RightParen =>
      rw [closeWhile.eq_def] at h
      dsimp only at h
      split at h
      · simp only [Except.ok.injEq, Prod.mk.injEq] at h
        obtain ⟨rfl, -, -⟩ := h
        exact hns
      · split at h
        · rcases ns with _ | ⟨nd, ns2⟩
          · simp only [Except.ok.injEq, Prod.mk.injEq] at h
            obtain ⟨rfl, -, -⟩ := h
            exact hns
          · dsimp only at h
            by_cases hsub : (nd.op == NodeOperation.Subexpression) = true
            · rw [if_pos hsub] at h
              simp only [Except.ok.injEq, Prod.mk.injEq] at h
              obtain ⟨rfl, -, -⟩ := h
              exact hns
            · rw [if_neg hsub] at h
              simp only [Except.ok.injEq, Prod.mk.injEq] at h
              obtain ⟨rfl, -, -⟩ := h
              intro t ht
              rcases List.mem_cons.mp ht with rfl | ht
              · have hnd := hns nd (by simp)
                refine ⟨by simp [WFb, hnd.1], ?_⟩
                intro i hi
                simp only [postorder_traversal, List.mem_append,
                  List.mem_singleton] at hi
                rcases hi with hi | hi
                · exact hnd.2 i hi
                · cases hi
              · exact hns t (by simp [ht])
        · simp only [Except.ok.injEq, Prod.mk.injEq] at h
          obtain ⟨rfl, -, -⟩ := h
          exact hns
    | RightBrace =>
      rw [closeWhile.eq_def] at h
      dsimp only at h
      split at h
      · simp only [Except.ok.injEq, Prod.mk.injEq] at h
        obtain ⟨rfl, -, -⟩ := h
        exact hns
      · split at h
        · rcases ns with _ | ⟨nd, ns2⟩
          · simp only [Except.ok.injEq, Prod.mk.injEq] at h
            obtain ⟨rfl, -, -⟩ := h
            exact hns
          · dsimp only at h
            by_cases hsub : (nd.op == NodeOperation.Subexpression) = true
            · rw [if_pos hsub] at h
              simp only [Except.ok.injEq, Prod.mk.injEq] at h
              obtain ⟨rfl, -, -⟩ := h
              exact hns
            · rw [if_neg hsub] at h
              simp only [Except.ok.injEq, Prod.mk.injEq] at h
              obtain ⟨rfl, -, -⟩ := h
              intro t ht
              rcases List.mem_cons.mp ht with rfl | ht
              · have hnd := hns nd (by simp)
                refine ⟨by simp [WFb, hnd.1], ?_⟩
                intro i hi
                simp only [postorder_traversal, List.mem_append,
                  List.mem_singleton] at hi
                rcases hi with hi | hi
                · exact hnd.2 i hi
                · cases hi
              · exact hns t (by simp [ht])
        · simp only [Except.ok.injEq, Prod.mk.injEq] at h
          obtain ⟨rfl, -, -⟩ := h
          exact hns
    | Error =>
      rw [closeWhile.eq_def] at h
      dsimp only at h
      split at h
      · simp only [Except.ok.injEq, Prod.mk.injEq] at h
        obtain ⟨rfl, -, -⟩ := h
        exact hns
      · split at h
        · rcases ns with _ | ⟨nd, ns2⟩
          · simp only [Except.ok.injEq, Prod.mk.injEq] at h
            obtain ⟨rfl, -, -⟩ := h
            exact hns
          · dsimp only at h
            by_cases hsub : (nd.op == NodeOperation.Subexpression) = true
            · rw [if_pos hsub] at h
              simp only [Except.ok.injEq, Prod.mk.injEq] at h
              obtain ⟨rfl, -, -⟩ := h
              exact hns
            · rw [if_neg hsub] at h
              simp only [Except.ok.injEq, Prod.mk.injEq] at h
              obtain ⟨rfl, -, -⟩ := h
              intro t ht
              rcases List.mem_cons.mp ht with rfl | ht
              · have hnd := hns nd (by simp)
                refine ⟨by simp [WFb, hnd.1], ?_⟩
                intro i hi
                simp only [postorder_traversal, List.mem_append,
                  List.mem_singleton] at hi
                rcases hi with hi | hi
                · exact hnd.2 i hi
                · cases hi
              · exact hns t (by simp [ht])
        · simp only [Except.ok.injEq, Prod.mk.injEq] at h
          obtain ⟨rfl, -, -⟩ := h
          exact hns
    | EOF =>
      rw [closeWhile.eq_def] at h
      dsimp only at h
      split at h
      · simp only [Except.ok.injEq, Prod.mk.injEq] at h
        obtain ⟨rfl, -, -⟩ := h
        exact hns
      · split at h
        · rcases ns with _ | ⟨nd, ns2⟩
          · simp only [Except.ok.injEq, Prod.mk.injEq] at h
            obtain ⟨rfl, -, -⟩ := h
            exact hns
          · dsimp only at h
            by_cases hsub : (nd.op == NodeOperation.Subexpression) = true
            · rw [if_pos hsub] at h
              simp only [Except.ok.injEq, Prod.mk.injEq] at h
              obtain ⟨rfl, -, -⟩ := h
              exact hns
            · rw [if_neg hsub] at h
              simp only [Except.ok.injEq, Prod.mk.injEq] at h
              obtain ⟨rfl, -, -⟩ := h
              intro t ht
              rcases List.mem_cons.mp ht with rfl | ht
              · have hnd := hns nd (by simp)
                refine ⟨by simp [WFb, hnd.1], ?_⟩
                intro i hi
                simp only [postorder_traversal, List.mem_append,
                  List.mem_singleton] at hi
                rcases hi with hi | hi
                · exact hnd.2 i hi
                · cases hi
              · exact hns t (by simp [ht])
        · simp only [Except.ok.injEq, Prod.mk.injEq] at h
          obtain ⟨rfl, -, -⟩ := h
          exact hns

theorem compileStep_preserves (st : CState) (tok : Token) (st' : CState)
    (hgood : GoodState st) (h : compileStep st tok = .ok st') : GoodState st' := by
  unfold compileStep at h
  cases htt : tok.token_type with
  | Error =>
    rw [htt] at h
    simp only [Except.ok.injEq] at h
    subst h
    exact fun t ht => hgood t ht
  | LeftParen =>
    rw [htt] at h
    simp only [Except.ok.injEq] at h
    subst h
    exact fun t ht => hgood t ht
  | LeftBrace =>
    rw [htt] at h
    simp only [Except.ok.injEq] at h
    subst h
    exact fun t ht => hgood t ht
  | Variable =>
    rw [htt] at h
    dsimp only at h
    cases hf : st.vars.findIdx? (fun v => v == tok.lexeme) with
    | some pos =>
      rw [hf] at h
      dsimp only at h
      simp only [Except.ok.injEq] at h
      subst h
      intro t ht
      simp only [List.mem_cons] at ht
      rcases ht with rfl | ht
      · refine ⟨by simp [WFb], ?_⟩
        intro i hi
        simp only [postorder_traversal, List.mem_singleton] at hi
        cases hi
        exact findIdx?_lt_length _ _ _ hf
      · exact hgood t ht
    | none =>
      rw [hf] at h
      dsimp only at h
      simp only [Except.ok.injEq] at h
      subst h
      intro t ht
      simp only [List.mem_cons] at ht
      rcases ht with rfl | ht
      · refine ⟨by simp [WFb], ?_⟩
        intro i hi
        simp only [postorder_traversal, List.mem_singleton] at hi
        cases hi
        simp
      · obtain ⟨hw, hd⟩ := hgood t ht
        exact ⟨hw, DerefsLT_mono hd (by simp)⟩
  | Literal v =>
    rw [htt] at h
    simp only [Except.ok.injEq] at h
    subst h
    intro t ht
    simp only [List.mem_cons] at ht
    rcases ht with rfl | ht
    · refine ⟨by simp [WFb], ?_⟩
      intro i hi
      simp only [postorder_traversal, List.mem_singleton] at hi
      cases hi
    · exact hgood t ht
  | Operator cur =>
    rw [htt] at h
    dsimp only at h
    cases hw : opWhile cur st.ns st.os with
    | error c => rw [hw] at h; cases h
    | ok triple =>
      obtain ⟨ns1, os1, err⟩ := triple
      rw [hw] at h
      dsimp only at h
      simp only [Except.ok.injEq] at h
      subst h
      intro t ht
      exact opWhile_preserves cur st.os st.ns (fun u hu => hgood u hu) ns1 os1 err hw t ht
  | RightParen =>
    rw [htt] at h
    dsimp only at h
    cases hw : closeWhile TokenType.RightParen st.ns st.os with
    | error c => rw [hw] at h; cases h
    | ok triple =>
      obtain ⟨ns1, os1, err⟩ := triple
      rw [hw] at h
      dsimp only at h
      simp only [Except.ok.injEq] at h
      subst h
      intro t ht
      exact closeWhile_preserves TokenType.RightParen st.os st.ns
        (fun u hu => hgood u hu) ns1 os1 err hw t ht
  | RightBrace =>
    rw [htt] at h
    dsimp only at h
    cases hw : closeWhile TokenType.RightBrace st.ns st.os with
    | error c => rw [hw] at h; cases h
    | ok triple =>
      obtain ⟨ns1, os1, err⟩ := triple
      rw [hw] at h
      dsimp only at h
      simp only [Except.ok.injEq] at h
      subst h
      intro t ht
      exact closeWhile_preserves TokenType.RightBrace st.os st.ns
        (fun u hu => hgood u hu) ns1 os1 err hw t ht
  | EOF =>
    rw [htt] at h
    dsimp only at h
    cases hw : closeWhile TokenType.EOF st.ns st.os with
    | error c => rw [hw] at h; cases h
    | ok triple =>
      obtain ⟨ns1, os1, err⟩ := triple
      rw [hw] at h
      dsimp only at h
      simp only [Except.ok.injEq] at h
      subst h
      intro t ht
      exact closeWhile_preserves TokenType.EOF st.os st.ns
        (fun u hu => hgood u hu) ns1 os1 err hw t ht

theorem compileLoop_preserves :
    ∀ (tokens : List Token) (st st' : CState),
      GoodState st → compileLoop tokens st = .ok st' → GoodState st' := by
  intro tokens
  induction tokens with
  | nil =>
    intro st st' hg h
    simp only [compileLoop, Except.ok.injEq] at h
    subst h
    exact hg
  | cons tok rest ih =>
    intro st st' hg h
    rw [compileLoop] at h
    by_cases he : st.error = true
    · rw [if_pos he] at h
      simp only [Except.ok.injEq] at h
      subst h
      exact hg
    · rw [if_neg he] at h
      cases hs : compileStep st tok with
      | error c => rw [hs] at h; cases h
      | ok st1 =>
        rw [hs] at h
        exact ih st1 st' (compileStep_preserves st tok st1 hg hs) h

/-- Every AST a successful compilation returns is well-formed and
dereferences only variables interned in the returned table. -/
theorem compile_root_good (tokens : List Token) (r : CompiledSyntaxBTree) (t : ASTNode)
    (h : compile tokens = .ok r) (hroot : r.root = some t) :
    WFb t = true ∧ DerefsLT t r.vars.length := by
  match tokens with
  | [] => simp [compile] at h
  | t0 :: rest =>
    cases hl : compileLoop (t0 :: rest) ⟨[], [], [], false, t0⟩ with
    | error c => simp [compile, hl] at h
    | ok st =>
      simp only [compile, hl, Except.ok.injEq] at h
      have hg : GoodState st :=
        compileLoop_preserves _ _ _ (fun u hu => by simp at hu) hl
      subst h
      unfold finalize at hroot ⊢
      by_cases he : st.error = true
      · simp [he] at hroot
      · simp only [he, Bool.false_eq_true, if_false] at hroot ⊢
        by_cases hc : (st.os.length == 0 && st.ns.length == 1) = true
        · rw [if_pos hc] at hroot ⊢
          dsimp only at hroot ⊢
          cases hsn : st.ns with
          | nil =>
            rw [hsn] at hroot
            simp at hroot
          | cons n tail =>
            rw [hsn] at hroot
            simp only [List.head?_cons, Option.some.injEq] at hroot
            subst hroot
            exact hg n (by rw [hsn]; simp)
        · rw [if_neg hc] at hroot
          simp at hroot

@[simp] theorem beq_sub_vd (i : Nat) :
    (NodeOperation.VariableDeref i == NodeOperation.Subexpression) = false := rfl

@[simp] theorem beq_sub_lit (b : Bool) :
    (NodeOperation.Literal b == NodeOperation.Subexpression) = false := rfl

@[simp] theorem beq_sub_un (u : OperatorType) :
    (NodeOperation.UnaryOperation u == NodeOperation.Subexpression) = false := rfl

@[simp] theorem beq_sub_bin (u : OperatorType) :
    (NodeOperation.BinaryOperation u == NodeOperation.Subexpression) = false := rfl

@[simp] theorem beq_sub_isub (j : Nat) :
    (NodeOperation.IndexedSubexpression j == NodeOperation.Subexpression) = false := rfl

@[simp] theorem beq_sub_sub :
    (NodeOperation.Subexpression == NodeOperation.Subexpression) = true := rfl

theorem perm_swap_assoc {α : Type} (A B C : List α) :
    (A ++ (B ++ C)).Perm (B ++ (A ++ C)) := by
  have h1 : A ++ (B ++ C) = (A ++ B) ++ C := by simp [List.append_assoc]
  have h2 : B ++ (A ++ C) = (B ++ A) ++ C := by simp [List.append_assoc]
  rw [h1, h2]
  exact List.perm_append_comm.append_right C

theorem groupsSpec_length (t : ASTNode) (h : WFb t = true) (k : Nat) :
    (groupsSpec t k).length = nsubs t := by
  induction t generalizing k with
  | mk0 op =>
    match op, h with
    | NodeOperation.VariableDeref i, _ => simp [groupsSpec, nsubs]
    | NodeOperation.Literal v, _ => simp [groupsSpec, nsubs]
  | mkL op l ihl =>
    match op, h with
    | NodeOperation.UnaryOperation u, h =>
      have hwl : WFb l = true := by simpa [WFb] using h
      simp [groupsSpec, nsubs, ihl hwl]
    | NodeOperation.Subexpression, h =>
      have hwl : WFb l = true := by simpa [WFb] using h
      simp [groupsSpec, nsubs, ihl hwl]
  | mkLR op l r0 ihl ihr =>
    match op, h with
    | NodeOperation.BinaryOperation b, h =>
      simp only [WFb, Bool.and_eq_true] at h
      simp [groupsSpec, nsubs, ihl h.1, ihr h.2]
  | mkR op r0 ih => simp [WFb] at h

/-- The groups' contents and the residual together are a permutation of
the marker-indexed postfix sequence. -/
theorem groups_flatten_perm (t : ASTNode) (h : WFb t = true) (k : Nat) :
    ((groupsSpec t k).flatten ++ resid t k).Perm (ipf t k) := by
  induction t generalizing k with
  | mk0 op =>
    match op, h with
    | NodeOperation.VariableDeref i, _ => simp [groupsSpec, resid, ipf]
    | NodeOperation.Literal v, _ => simp [groupsSpec, resid, ipf]
  | mkL op l ihl =>
    match op, h with
    | NodeOperation.UnaryOperation u, h =>
      have hwl : WFb l = true := by simpa [WFb] using h
      simp only [groupsSpec, resid, ipf, beq_sub_un, Bool.false_eq_true, if_false]
      have step1 : (groupsSpec l k).flatten ++ (resid l k ++ [NodeOperation.UnaryOperation u]) =
          ((groupsSpec l k).flatten ++ resid l k) ++ [NodeOperation.UnaryOperation u] := by
        simp [List.append_assoc]
      rw [step1]
      exact (ihl hwl k).append_right _
    | NodeOperation.Subexpression, h =>
      have hwl : WFb l = true := by simpa [WFb] using h
      simp only [groupsSpec, resid, ipf, beq_sub_sub, if_true]
      have step1 : (groupsSpec l k ++ [resid l k]).flatten ++
            [NodeOperation.IndexedSubexpression (k + nsubs l)] =
          ((groupsSpec l k).flatten ++ resid l k) ++
            [NodeOperation.IndexedSubexpression (k + nsubs l)] := by
        simp [List.flatten_append, List.append_assoc]
      rw [step1]
      exact (ihl hwl k).append_right _
  | mkLR op l r0 ihl ihr =>
    match op, h with
    | NodeOperation.BinaryOperation b, h =>
      simp only [WFb, Bool.and_eq_true] at h
      obtain ⟨hwl, hwr⟩ := h
      simp only [groupsSpec, resid, ipf, beq_sub_bin, Bool.false_eq_true, if_false]
      have key : (((groupsSpec l k).flatten ++ resid l k) ++
            ((groupsSpec r0 (k + nsubs l)).flatten ++ resid r0 (k + nsubs l))).Perm
          (ipf l k ++ ipf r0 (k + nsubs l)) :=
        (ihl hwl k).append (ihr hwr (k + nsubs l))
      have step1 : (groupsSpec l k ++ groupsSpec r0 (k + nsubs l)).flatten ++
            (resid l k ++ resid r0 (k + nsubs l) ++ [NodeOperation.BinaryOperation b]) =
          (groupsSpec l k).flatten ++ ((groupsSpec r0 (k + nsubs l)).flatten ++
            (resid l k ++ (resid r0 (k + nsubs l) ++ [NodeOperation.BinaryOperation b]))) := by
        simp [List.flatten_append, List.append_assoc]
      rw [step1]
      refine List.Perm.trans (List.Perm.append_left (groupsSpec l k).flatten
        (perm_swap_assoc ((groupsSpec r0 (k + nsubs l)).flatten) (resid l k)
          (resid r0 (k + nsubs l) ++ [NodeOperation.BinaryOperation b]))) ?_
      have step2 : (groupsSpec l k).flatten ++ (resid l k ++
            ((groupsSpec r0 (k + nsubs l)).flatten ++
              (resid r0 (k + nsubs l) ++ [NodeOperation.BinaryOperation b]))) =
          (((groupsSpec l k).flatten ++ resid l k) ++
            ((groupsSpec r0 (k + nsubs l)).flatten ++ resid r0 (k + nsubs l))) ++
            [NodeOperation.BinaryOperation b] := by
        simp [List.append_assoc]
      rw [step2]
      exact key.append_right _
  | mkR op r0 ih => simp [WFb] at h

theorem resid_markers (t : ASTNode) (h : WFb t = true) :
    ∀ k j, NodeOperation.IndexedSubexpression j ∈ resid t k → j < k + nsubs t := by
  induction t with
  | mk0 op =>
    intro k j hj
    match op, h with
    | NodeOperation.VariableDeref i, _ => simp [resid] at hj
    | NodeOperation.Literal v, _ => simp [resid] at hj
  | mkL op l ihl =>
    intro k j hj
    match op, h with
    | NodeOperation.UnaryOperation u, h =>
      have hwl : WFb l = true := by simpa [WFb] using h
      simp only [resid, beq_sub_un, Bool.false_eq_true, if_false, List.mem_append,
        List.mem_singleton] at hj
      rcases hj with hj | hj
      · have := ihl hwl k j hj
        simp [nsubs]
        omega
      · cases hj
    | NodeOperation.Subexpression, h =>
      simp only [resid, beq_sub_sub, if_true, List.mem_singleton] at hj
      cases hj
      simp [nsubs]
  | mkLR op l r0 ihl ihr =>
    intro k j hj
    match op, h with
    | NodeOperation.BinaryOperation b, h =>
      simp only [WFb, Bool.and_eq_true] at h
      simp only [resid, beq_sub_bin, Bool.false_eq_true, if_false, List.mem_append,
        List.mem_singleton] at hj
      rcases hj with (hj | hj) | hj
      · have := ihl h.1 k j hj
        simp [nsubs]
        omega
      · have := ihr h.2 (k + nsubs l) j hj
        simp [nsubs]
        omega
      · cases hj
  | mkR op r0 ih =>
    intro k j hj
    simp [WFb] at h

theorem groupsSpec_markers (t : ASTNode) (h : WFb t = true) :
    ∀ k idx g, (groupsSpec t k)[idx]? = some g →
      ∀ j, NodeOperation.IndexedSubexpression j ∈ g → j < k + idx := by
  induction t with
  | mk0 op =>
    intro k idx g hg j hj
    match op, h with
    | NodeOperation.VariableDeref i, _ => simp [groupsSpec] at hg
    | NodeOperation.Literal v, _ => simp [groupsSpec] at hg
  | mkL op l ihl =>
    intro k idx g hg j hj
    match op, h with
    | NodeOperation.UnaryOperation u, h =>
      have hwl : WFb l = true := by simpa [WFb] using h
      simp only [groupsSpec, beq_sub_un, Bool.false_eq_true, if_false] at hg
      exact ihl hwl k idx g hg j hj
    | NodeOperation.Subexpression, h =>
      have hwl : WFb l = true := by simpa [WFb] using h
      simp only [groupsSpec, beq_sub_sub, if_true] at hg
      by_cases hidx : idx < (groupsSpec l k).length
      · rw [List.getElem?_append, if_pos hidx] at hg
        exact ihl hwl k idx g hg j hj
      · rw [List.getElem?_append, if_neg hidx] at hg
        have hlen := groupsSpec_length l hwl k
        rcases Nat.lt_or_ge (idx - (groupsSpec l k).length) 1 with h1 | h1
        · have h0 : idx - (groupsSpec l k).length = 0 := by omega
          rw [h0] at hg
          simp only [List.getElem?_cons_zero, Option.some.injEq] at hg
          subst hg
          have := resid_markers l hwl k j hj
          omega
        · rw [List.getElem?_eq_none (by simp; omega)] at hg
          cases hg
  | mkLR op l r0 ihl ihr =>
    intro k idx g hg j hj
    match op, h with
    | NodeOperation.BinaryOperation b, h =>
      simp only [WFb, Bool.and_eq_true] at h
      obtain ⟨hwl, hwr⟩ := h
      simp only [groupsSpec, beq_sub_bin, Bool.false_eq_true, if_false] at hg
      by_cases hidx : idx < (groupsSpec l k).length
      · rw [List.getElem?_append, if_pos hidx] at hg
        exact ihl hwl k idx g hg j hj
      · rw [List.getElem?_append, if_neg hidx] at hg
        have hlen := groupsSpec_length l hwl k
        have := ihr hwr (k + nsubs l) (idx - (groupsSpec l k).length) g hg j hj
        omega
  | mkR op r0 ih =>
    intro k idx g hg j hj
    simp [WFb] at h

theorem resid_vd (t : ASTNode) :
    ∀ k i, NodeOperation.VariableDeref i ∈ resid t k →
      NodeOperation.VariableDeref i ∈ postorder_traversal t := by
  induction t with
  | mk0 op =>
    intro k i hi
    by_cases hop : op = NodeOperation.Subexpression
    · simp [resid, hop] at hi
    · simp only [resid, beq_sub_false hop, Bool.false_eq_true, if_false] at hi
      simpa [postorder_traversal] using hi
  | mkL op l ihl =>
    intro k i hi
    by_cases hop : op = NodeOperation.Subexpression
    · simp [resid, hop] at hi
    · simp only [resid, beq_sub_false hop, Bool.false_eq_true, if_false,
        List.mem_append, List.mem_singleton] at hi
      simp only [postorder_traversal, List.mem_append, List.mem_singleton]
      rcases hi with hi | hi
      · exact Or.inl (ihl k i hi)
      · exact Or.inr hi
  | mkLR op l r0 ihl ihr =>
    intro k i hi
    by_cases hop : op = NodeOperation.Subexpression
    · simp [resid, hop] at hi
    · simp only [resid, beq_sub_false hop, Bool.false_eq_true, if_false,
        List.mem_append, List.mem_singleton] at hi
      simp only [postorder_traversal, List.mem_append, List.mem_singleton]
      rcases hi with (hi | hi) | hi
      · exact Or.inl (Or.inl (ihl k i hi))
      · exact Or.inl (Or.inr (ihr (k + nsubs l) i hi))
      · exact Or.inr hi
  | mkR op r0 ih =>
    intro k i hi
    by_cases hop : op = NodeOperation.Subexpression
    · simp [resid, hop] at hi
    · simp only [resid, beq_sub_false hop, Bool.false_eq_true, if_false] at hi
      simpa [postorder_traversal] using hi

theorem groupsSpec_vd (t : ASTNode) :
    ∀ k g, g ∈ groupsSpec t k → ∀ i, NodeOperation.VariableDeref i ∈ g →
      NodeOperation.VariableDeref i ∈ postorder_traversal t := by
  induction t with
  | mk0 op => intro k g hg; simp [groupsSpec] at hg
  | mkL op l ihl =>
    intro k g hg i hi
    by_cases hop : op = NodeOperation.Subexpression
    · subst hop
      simp only [groupsSpec, beq_sub_sub, if_true, List.mem_append,
        List.mem_singleton] at hg
      simp only [postorder_traversal, List.mem_append, List.mem_singleton]
      rcases hg with hg | hg
      · exact Or.inl (ihl k g hg i hi)
      · subst hg
        exact Or.inl (resid_vd l k i hi)
    · simp only [groupsSpec, beq_sub_false hop, Bool.false_eq_true, if_false] at hg
      simp only [postorder_traversal, List.mem_append, List.mem_singleton]
      exact Or.inl (ihl k g hg i hi)
  | mkLR op l r0 ihl ihr =>
    intro k g hg i hi
    simp only [postorder_traversal, List.mem_append, List.mem_singleton]
    by_cases hop : op = NodeOperation.Subexpression
    · subst hop
      simp only [groupsSpec, beq_sub_sub, if_true, List.mem_append,
        List.mem_singleton] at hg
      rcases hg with (hg | hg) | hg
      · exact Or.inl (Or.inl (ihl k g hg i hi))
      · exact Or.inl (Or.inr (ihr (k + nsubs l) g hg i hi))
      · subst hg
        rw [List.mem_append] at hi
        rcases hi with hi | hi
        · exact Or.inl (Or.inl (resid_vd l k i hi))
        · exact Or.inl (Or.inr (resid_vd r0 (k + nsubs l) i hi))
    · simp only [groupsSpec, beq_sub_false hop, Bool.false_eq_true, if_false,
        List.mem_append] at hg
      rcases hg with hg | hg
      · exact Or.inl (Or.inl (ihl k g hg i hi))
      · exact Or.inl (Or.inr (ihr (k + nsubs l) g hg i hi))
  | mkR op r0 ih => intro k g hg; simp [groupsSpec] at hg

/-! ## C1 -/

/-- Root AST of `{p}` (brace bytes 123/125): a `Subexpression` wrapper
around a single variable dereference. -/
def astC1 : ASTNode := .mkL .Subexpression (.mk0 (.VariableDeref 0))

/-- C1, counterexample: compiling `{p}` succeeds with root `astC1`
(2 postfix nodes), but partitioning yields the single group
`[VariableDeref 0]`: the concatenation of the groups' contents is not
the AST's flat postfix sequence, and the sum of the group lengths (1)
differs from the total node count (2).  A brace-rooted expression's own
marker is dropped rather than kept as a residual group. -/
theorem c1_not_exact_postfix_cover :
    compile (toksOf "\x7bp\x7d") = .ok ⟨none, some astC1, [bts "p"]⟩
    ∧ subexpression_groups astC1 = some [[NodeOperation.VariableDeref 0]]
    ∧ [[NodeOperation.VariableDeref 0]].flatten ≠ postorder_traversal astC1
    ∧ ([[NodeOperation.VariableDeref 0]].map List.length).sum ≠
        (postorder_traversal astC1).length :=
  ⟨by decide, by decide, by decide, by decide⟩

/-- C1 (amended): for every AST produced by a successful compile, the
concatenation of the groups' contents is a permutation of the AST's
postfix sequence with every `Subexpression` rewritten to its
`IndexedSubexpression` marker (`ipf`), minus the root marker when the
root itself is a `Subexpression`; accordingly the group lengths sum to
the total node count, minus one in the brace-rooted case. -/
theorem c1_amended_groups_cover (tokens : List Token) (r : CompiledSyntaxBTree)
    (t : ASTNode) (gs : List (List NodeOperation))
    (h : compile tokens = .ok r) (hroot : r.root = some t)
    (hgs : subexpression_groups t = some gs) :
    gs.flatten.Perm
      (if t.op == NodeOperation.Subexpression then (ipf t 0).dropLast
       else ipf t 0)
    ∧ (gs.map List.length).sum
        + (if t.op == NodeOperation.Subexpression then 1 else 0)
        = (postorder_traversal t).length := by
  obtain ⟨hwf, -⟩ := compile_root_good tokens r t h hroot
  rw [subexpression_groups_spec t hwf] at hgs
  by_cases hop : t.op = NodeOperation.Subexpression
  · cases t with
    | mk0 op =>
      have hop' : op = NodeOperation.Subexpression := hop
      subst hop'
      simp [WFb] at hwf
    | mkR op r0 =>
      have hop' : op = NodeOperation.Subexpression := hop
      subst hop'
      simp [WFb] at hwf
    | mkLR op l r0 =>
      have hop' : op = NodeOperation.Subexpression := hop
      subst hop'
      simp [WFb] at hwf
    | mkL op l =>
      have hop' : op = NodeOperation.Subexpression := hop
      subst hop'
      have hwl : WFb l = true := by simpa [WFb] using hwf
      simp only [ASTNode.op, beq_self_eq_true, if_true, Option.some.injEq] at hgs
      subst hgs
      constructor
      · simp only [ASTNode.op, beq_self_eq_true, if_true]
        simp only [groupsSpec, ipf, beq_self_eq_true, if_true]
        rw [List.dropLast_concat]
        simp only [List.flatten_append, List.flatten_cons, List.flatten_nil,
          List.append_nil]
        exact groups_flatten_perm l hwl 0
      · simp only [ASTNode.op, beq_self_eq_true, if_true]
        have hflat := (groups_flatten_perm l hwl 0).length_eq
        have hipf := ipf_length l 0
        simp only [List.length_append] at hflat
        simp only [groupsSpec, beq_self_eq_true, if_true, postorder_traversal,
          List.length_append, List.length_cons, List.length_nil,
          List.map_append, List.sum_append, List.map_cons, List.map_nil,
          List.sum_cons, List.sum_nil]
        rw [← List.length_flatten]
        omega
  · simp only [beq_sub_false hop, Bool.false_eq_true, if_false,
      Option.some.injEq] at hgs ⊢
    subst hgs
    constructor
    · simp only [List.flatten_append, List.flatten_cons, List.flatten_nil,
        List.append_nil]
      exact groups_flatten_perm t hwf 0
    · have hflat := (groups_flatten_perm t hwf 0).length_eq
      have hipf := ipf_length t 0
      simp only [List.length_append] at hflat
      simp only [List.map_append, List.sum_append, List.map_cons, List.map_nil,
        List.sum_cons, List.sum_nil]
      rw [← List.length_flatten]
      omega

/-- Witness for C1 (amended) at `(p or q) and not {p and q}`. -/
theorem c1_witness :
    [groupC5_0, groupC5_1].flatten.Perm
      (if astC5.op == NodeOperation.Subexpression then (ipf astC5 0).dropLast
       else ipf astC5 0)
    ∧ ([groupC5_0, groupC5_1].map List.length).sum
        + (if astC5.op == NodeOperation.Subexpression then 1 else 0)
        = (postorder_traversal astC5).length :=
  c1_amended_groups_cover (toksOf "(p or q) and not \x7bp and q\x7d")
    ⟨none, some astC5, [bts "p", bts "q"]⟩ astC5 [groupC5_0, groupC5_1]
    (by decide) rfl (by decide)

/-! ## C8 -/

/-- C8: in every groups list obtained from a compiled AST, any
`IndexedSubexpression j` occurring inside the group at position `k`
satisfies `j < k`: group references only point backwards, so a
left-to-right evaluation reads only already-written results. -/
theorem c8_backward_references (tokens : List Token) (r : CompiledSyntaxBTree)
    (t : ASTNode) (gs : List (List NodeOperation))
    (h : compile tokens = .ok r) (hroot : r.root = some t)
    (hgs : subexpression_groups t = some gs) :
    ∀ k g, gs[k]? = some g →
      ∀ j, NodeOperation.IndexedSubexpression j ∈ g → j < k := by
  obtain ⟨hwf, -⟩ := compile_root_good tokens r t h hroot
  rw [subexpression_groups_spec t hwf] at hgs
  intro k g hg j hj
  by_cases hop : t.op = NodeOperation.Subexpression
  · simp only [hop, beq_self_eq_true, if_true, Option.some.injEq] at hgs
    subst hgs
    have := groupsSpec_markers t hwf 0 k g hg j hj
    omega
  · simp only [beq_sub_false hop, Bool.false_eq_true, if_false,
      Option.some.injEq] at hgs
    subst hgs
    by_cases hk : k < (groupsSpec t 0).length
    · rw [List.getElem?_append, if_pos hk] at hg
      have := groupsSpec_markers t hwf 0 k g hg j hj
      omega
    · rw [List.getElem?_append, if_neg hk] at hg
      rcases Nat.lt_or_ge (k - (groupsSpec t 0).length) 1 with h1 | h1
      · have h0 : k - (groupsSpec t 0).length = 0 := by omega
        rw [h0] at hg
        simp only [List.getElem?_cons_zero, Option.some.injEq] at hg
        subst hg
        have hm := resid_markers t hwf 0 j hj
        have hlen := groupsSpec_length t hwf 0
        omega
      · rw [List.getElem?_eq_none (by simp; omega)] at hg
        cases hg

/-- Witness for C8 at the groups of `(p or q) and not {p and q}`:
`IndexedSubexpression 0` occurs in group 1, and 0 < 1. -/
theorem c8_witness :
    [groupC5_0, groupC5_1][1]? = some groupC5_1
    ∧ NodeOperation.IndexedSubexpression 0 ∈ groupC5_1
    ∧ 0 < 1 :=
  ⟨by decide, by decide,
    c8_backward_references (toksOf "(p or q) and not \x7bp and q\x7d")
      ⟨none, some astC5, [bts "p", bts "q"]⟩ astC5 [groupC5_0, groupC5_1]
      (by decide) rfl (by decide) 1 groupC5_1 (by decide) 0 (by decide)⟩

/-! ## C9 -/

/-- C9: after a successful compile, every `VariableDeref i` in the
returned AST — and in every group obtained by partitioning it — satisfies
`i < variables.length`, so a values slice as long as the variable table
covers every dereference the evaluator performs. -/
theorem c9_variable_derefs_bounded (tokens : List Token)
    (r : CompiledSyntaxBTree) (t : ASTNode)
    (h : compile tokens = .ok r) (hroot : r.root = some t) :
    (∀ i, NodeOperation.VariableDeref i ∈ postorder_traversal t →
      i < r.vars.length)
    ∧ ∀ gs, subexpression_groups t = some gs →
        ∀ g ∈ gs, ∀ i, NodeOperation.VariableDeref i ∈ g →
          i < r.vars.length := by
  obtain ⟨hwf, hd⟩ := compile_root_good tokens r t h hroot
  refine ⟨hd, ?_⟩
  intro gs hgs g hgmem i hi
  rw [subexpression_groups_spec t hwf] at hgs
  by_cases hop : t.op = NodeOperation.Subexpression
  · simp only [hop, beq_self_eq_true, if_true, Option.some.injEq] at hgs
    subst hgs
    exact hd i (groupsSpec_vd t 0 g hgmem i hi)
  · simp only [beq_sub_false hop, Bool.false_eq_true, if_false,
      Option.some.injEq] at hgs
    subst hgs
    rcases List.mem_append.mp hgmem with hg | hg
    · exact hd i (groupsSpec_vd t 0 g hg i hi)
    · rw [List.mem_singleton] at hg
      subst hg
      exact hd i (resid_vd t 0 i hi)

/-- Witness for C9 at `(p or q) and not {p and q}`: `VariableDeref 1`
occurs in the root AST, and 1 < 2 (two interned variables). -/
theorem c9_witness :
    NodeOperation.VariableDeref 1 ∈ postorder_traversal astC5
    ∧ 1 < 2 :=
  ⟨by decide, by
    have hb := (c9_variable_derefs_bounded
        (toksOf "(p or q) and not \x7bp and q\x7d")
        ⟨none, some astC5, [bts "p", bts "q"]⟩ astC5 (by decide) rfl).1
      1 (by decide)
    exact hb⟩

/-! ## C3 -/

/-- CNDL / BI_CNDL: the operator types the parser has no priority entry
or reduction rule for. -/
def cndlOp : OperatorType → Bool
  | .CNDL => true
  | .BI_CNDL => true
  | _ => false

/-- Does a token type carry a CNDL / BI_CNDL operator? -/
def ttCndl : TokenType → Bool
  | TokenType.Operator op => cndlOp op
  | _ => false

/-- Does a token carry a CNDL / BI_CNDL operator? -/
def cndlTok (tok : Token) : Bool := ttCndl tok.token_type

/-- `opWhile` never removes a CNDL / BI_CNDL operator from the operator
stack: reducing past one would first unwrap its missing priority in
`stash_prev_op` and panic. -/
theorem opWhile_cndl (cur : OperatorType) :
    ∀ (os : List TokenType) (ns : List ASTNode) ns' os' err,
      opWhile cur ns os = .ok (ns', os', err) →
      os.any ttCndl = true → os'.any ttCndl = true := by
  intro os
  induction os with
  | nil =>
    intro ns ns' os' err h hany
    simp at hany
  | cons top rest ih =>
    intro ns ns' os' err h hany
    cases top with
    | Operator target =>
      rw [opWhile] at h
      cases hsp : stash_prev_op cur target with
      | none => rw [hsp] at h; cases h
      | some b =>
        rw [hsp] at h
        cases b with
        | false =>
          simp only [Except.ok.injEq, Prod.mk.injEq] at h
          obtain ⟨-, rfl, -⟩ := h
          exact hany
        | true =>
          cases hc : create_operation_node ns target with
          | error c => rw [hc] at h; cases h
          | ok pair =>
            obtain ⟨resx, nsx⟩ := pair
            rw [hc] at h
            cases resx with
            | none =>
              simp only [Except.ok.injEq, Prod.mk.injEq] at h
              obtain ⟨-, rfl, -⟩ := h
              exact hany
            | some node =>
              have htgt : ttCndl (TokenType.Operator target) = false := by
                cases target <;>
                  first
                    | rfl
                    | (cases cur <;> simp [stash_prev_op, op_priority] at hsp)
              refine ih (node :: nsx) ns' os' err h ?_
              simp only [List.any_cons, htgt, Bool.false_or] at hany
              exact hany
    | Variable =>
      simp only [opWhile, Except.ok.injEq, Prod.mk.injEq] at h
      obtain ⟨-, rfl, -⟩ := h
      exact hany
    | Literal v =>
      simp only [opWhile, Except.ok.injEq, Prod.mk.injEq] at h
      obtain ⟨-, rfl, -⟩ := h
      exact hany
    | LeftParen =>
      simp only [opWhile, Except.ok.injEq, Prod.mk.injEq] at h
      obtain ⟨-, rfl, -⟩ := h
      exact hany
    | RightParen =>
      simp only [opWhile, Except.ok.injEq, Prod.mk.injEq] at h
      obtain ⟨-, rfl, -⟩ := h
      exact hany
    | LeftBrace =>
      simp only [opWhile, Except.ok.injEq, Prod.mk.injEq] at h
      obtain ⟨-, rfl, -⟩ := h
      exact hany
    | RightBrace =>
      simp only [opWhile, Except.ok.injEq, Prod.mk.injEq] at h
      obtain ⟨-, rfl, -⟩ := h
      exact hany
    | Error =>
      simp only [opWhile, Except.ok.injEq, Prod.mk.injEq] at h
      obtain ⟨-, rfl, -⟩ := h
      exact hany
    | EOF =>
      simp only [opWhile, Except.ok.injEq, Prod.mk.injEq] at h
      obtain ⟨-, rfl, -⟩ := h
      exact hany

/-- `closeWhile` never removes a CNDL / BI_CNDL operator from the
operator stack: reducing one hits `create_operation_node`'s unhandled
match arm and panics. -/
theorem closeWhile_cndl (tt : TokenType) :
    ∀ (os : List TokenType) (ns : List ASTNode) ns' os' err,
      closeWhile tt ns os = .ok (ns', os', err) →
      os.any ttCndl = true → os'.any ttCndl = true := by
  intro os
  induction os with
  | nil =>
    intro ns ns' os' err h hany
    simp at hany
  | cons top rest ih =>
    intro ns ns' os' err h hany
    rw [closeWhile.eq_def] at h
    dsimp only at h
    split at h
    · rename_i op
      cases hc : create_operation_node ns op with
      | error c => rw [hc] at h; cases h
      | ok pair =>
        obtain ⟨resx, nsx⟩ := pair
        rw [hc] at h
        cases resx with
        | none =>
          simp only [Except.ok.injEq, Prod.mk.injEq] at h
          obtain ⟨-, rfl, -⟩ := h
          exact hany
        | some node =>
          have hopf : ttCndl (TokenType.Operator op) = false := by
            cases op <;> first | rfl | simp [create_operation_node] at hc
          refine ih (node :: nsx) ns' os' err h ?_
          simp only [List.any_cons, hopf, Bool.false_or] at hany
          exact hany
    · split at h
      · rename_i hpc
        simp only [Bool.and_eq_true, beq_iff_eq] at hpc
        obtain ⟨-, rfl⟩ := hpc
        simp only [Except.ok.injEq, Prod.mk.injEq] at h
        obtain ⟨-, rfl, -⟩ := h
        have hlp : ttCndl TokenType.LeftParen = false := rfl
        simp only [List.any_cons, hlp, Bool.false_or] at hany
        exact hany
      · split at h
        · rename_i hbc
          simp only [Bool.and_eq_true, beq_iff_eq] at hbc
          obtain ⟨-, rfl⟩ := hbc
          simp only [Except.ok.injEq, Prod.mk.injEq] at h
          obtain ⟨-, rfl, -⟩ := h
          have hlb : ttCndl TokenType.LeftBrace = false := rfl
          simp only [List.any_cons, hlb, Bool.false_or] at hany
          exact hany
        · simp only [Except.ok.injEq, Prod.mk.injEq] at h
          obtain ⟨-, rfl, -⟩ := h
          exact hany

/-- `compileStep` keeps the error flag set once it is set. -/
theorem compileStep_error_mono (st : CState) (tok : Token) (st' : CState)
    (h : compileStep st tok = .ok st') (he : st.error = true) :
    st'.error = true := by
  unfold compileStep at h
  cases htt : tok.token_type with
  | Error =>
    rw [htt] at h
    simp only [Except.ok.injEq] at h
    subst h
    rfl
  | LeftParen =>
    rw [htt] at h
    simp only [Except.ok.injEq] at h
    subst h
    exact he
  | LeftBrace =>
    rw [htt] at h
    simp only [Except.ok.injEq] at h
    subst h
    exact he
  | Variable =>
    rw [htt] at h
    dsimp only at h
    cases hf : st.vars.findIdx? (fun v => v == tok.lexeme) with
    | some pos =>
      rw [hf] at h
      dsimp only at h
      simp only [Except.ok.injEq] at h
      subst h
      exact he
    | none =>
      rw [hf] at h
      dsimp only at h
      simp only [Except.ok.injEq] at h
      subst h
      exact he
  | Literal v =>
    rw [htt] at h
    simp only [Except.ok.injEq] at h
    subst h
    exact he
  | Operator cur =>
    rw [htt] at h
    dsimp only at h
    cases hw : opWhile cur st.ns st.os with
    | error c => rw [hw] at h; cases h
    | ok triple =>
      obtain ⟨ns1, os1, err⟩ := triple
      rw [hw] at h
      dsimp only at h
      simp only [Except.ok.injEq] at h
      subst h
      simp [he]
  | RightParen =>
    rw [htt] at h
    dsimp only at h
    cases hw : closeWhile TokenType.RightParen st.ns st.os with
    | error c => rw [hw] at h; cases h
    | ok triple =>
      obtain ⟨ns1, os1, err⟩ := triple
      rw [hw] at h
      dsimp only at h
      simp only [Except.ok.injEq] at h
      subst h
      simp [he]
  | RightBrace =>
    rw [htt] at h
    dsimp only at h
    cases hw : closeWhile TokenType.RightBrace st.ns st.os with
    | error c => rw [hw] at h; cases h
    | ok triple =>
      obtain ⟨ns1, os1, err⟩ := triple
      rw [hw] at h
      dsimp only at h
      simp only [Except.ok.injEq] at h
      subst h
      simp [he]
  | EOF =>
    rw [htt] at h
    dsimp only at h
    cases hw : closeWhile TokenType.EOF st.ns st.os with
    | error c => rw [hw] at h; cases h
    | ok triple =>
      obtain ⟨ns1, os1, err⟩ := triple
      rw [hw] at h
      dsimp only at h
      simp only [Except.ok.injEq] at h
      subst h
      simp [he]

/-- `compileStep` never removes a CNDL / BI_CNDL operator from the
operator stack. -/
theorem compileStep_os_cndl (st : CState) (tok : Token) (st' : CState)
    (h : compileStep st tok = .ok st') (hos : st.os.any ttCndl = true) :
    st'.os.any ttCndl = true := by
  unfold compileStep at h
  cases htt : tok.token_type with
  | Error =>
    rw [htt] at h
    simp only [Except.ok.injEq] at h
    subst h
    exact hos
  | LeftParen =>
    rw [htt] at h
    simp only [Except.ok.injEq] at h
    subst h
    simp [hos]
  | LeftBrace =>
    rw [htt] at h
    simp only [Except.ok.injEq] at h
    subst h
    simp [hos]
  | Variable =>
    rw [htt] at h
    dsimp only at h
    cases hf : st.vars.findIdx? (fun v => v == tok.lexeme) with
    | some pos =>
      rw [hf] at h
      dsimp only at h
      simp only [Except.ok.injEq] at h
      subst h
      exact hos
    | none =>
      rw [hf] at h
      dsimp only at h
      simp only [Except.ok.injEq] at h
      subst h
      exact hos
  | Literal v =>
    rw [htt] at h
    simp only [Except.ok.injEq] at h
    subst h
    exact hos
  | Operator cur =>
    rw [htt] at h
    dsimp only at h
    cases hw : opWhile cur st.ns st.os with
    | error c => rw [hw] at h; cases h
    | ok triple =>
      obtain ⟨ns1, os1, err⟩ := triple
      rw [hw] at h
      dsimp only at h
      simp only [Except.ok.injEq] at h
      subst h
      have h1 := opWhile_cndl cur st.os st.ns ns1 os1 err hw hos
      simp [h1]
  | RightParen =>
    rw [htt] at h
    dsimp only at h
    cases hw : closeWhile TokenType.RightParen st.ns st.os with
    | error c => rw [hw] at h; cases h
    | ok triple =>
      obtain ⟨ns1, os1, err⟩ := triple
      rw [hw] at h
      dsimp only at h
      simp only [Except.ok.injEq] at h
      subst h
      exact closeWhile_cndl TokenType.RightParen st.os st.ns ns1 os1 err hw hos
  | RightBrace =>
    rw [htt] at h
    dsimp only at h
    cases hw : closeWhile TokenType.RightBrace st.ns st.os with
    | error c => rw [hw] at h; cases h
    | ok triple =>
      obtain ⟨ns1, os1, err⟩ := triple
      rw [hw] at h
      dsimp only at h
      simp only [Except.ok.injEq] at h
      subst h
      exact closeWhile_cndl TokenType.RightBrace st.os st.ns ns1 os1 err hw hos
  | EOF =>
    rw [htt] at h
    dsimp only at h
    cases hw : closeWhile TokenType.EOF st.ns st.os with
    | error c => rw [hw] at h; cases h
    | ok triple =>
      obtain ⟨ns1, os1, err⟩ := triple
      rw [hw] at h
      dsimp only at h
      simp only [Except.ok.injEq] at h
      subst h
      exact closeWhile_cndl TokenType.EOF st.os st.ns ns1 os1 err hw hos

/-- Processing an Operator token pushes it onto the operator stack, so
after a CNDL / BI_CNDL operator token the stack holds a CNDL / BI_CNDL
entry. -/
theorem compileStep_cndl_push (st : CState) (tok : Token) (st' : CState)
    (op : OperatorType) (htt : tok.token_type = TokenType.Operator op)
    (h : compileStep st tok = .ok st') (hop : cndlOp op = true) :
    st'.os.any ttCndl = true := by
  unfold compileStep at h
  rw [htt] at h
  dsimp only at h
  cases hw : opWhile op st.ns st.os with
  | error c => rw [hw] at h; cases h
  | ok triple =>
    obtain ⟨ns1, os1, err⟩ := triple
    rw [hw] at h
    dsimp only at h
    simp only [Except.ok.injEq] at h
    subst h
    have hfirst : ttCndl (TokenType.Operator op) = true := by
      simpa [ttCndl] using hop
    simp [hfirst]

/-- Through the token loop: once the error flag is set, the operator
stack holds a CNDL / BI_CNDL entry, or such a token is still to come,
the final state has the error flag set or a CNDL / BI_CNDL entry on its
operator stack. -/
theorem compileLoop_cndl :
    ∀ (tokens : List Token) (st stf : CState),
      compileLoop tokens st = .ok stf →
      (st.error = true ∨ st.os.any ttCndl = true ∨
        ∃ tok ∈ tokens, cndlTok tok = true) →
      stf.error = true ∨ stf.os.any ttCndl = true := by
  intro tokens
  induction tokens with
  | nil =>
    intro st stf h hd
    simp only [compileLoop, Except.ok.injEq] at h
    subst h
    rcases hd with hd | hd | ⟨tok, htok, -⟩
    · exact Or.inl hd
    · exact Or.inr hd
    · exact absurd htok (List.not_mem_nil _)
  | cons tok rest ih =>
    intro st stf h hd
    rw [compileLoop] at h
    by_cases he : st.error = true
    · rw [if_pos he] at h
      simp only [Except.ok.injEq] at h
      subst h
      exact Or.inl he
    · rw [if_neg he] at h
      cases hs : compileStep st tok with
      | error c => rw [hs] at h; cases h
      | ok st1 =>
        rw [hs] at h
        rcases hd with hd | hd | ⟨tok2, htok2, hc2⟩
        · exact absurd hd he
        · exact ih st1 stf h (Or.inr (Or.inl (compileStep_os_cndl st tok st1 hs hd)))
        · rcases List.mem_cons.mp htok2 with rfl | htok2
          · unfold cndlTok at hc2
            cases htt : tok2.token_type with
            | Operator op =>
              rw [htt] at hc2
              have hcop : cndlOp op = true := by simpa [ttCndl] using hc2
              exact ih st1 stf h (Or.inr (Or.inl
                (compileStep_cndl_push st tok2 st1 op htt hs hcop)))
            | Variable => rw [htt] at hc2; simp [ttCndl] at hc2
            | Literal v => rw [htt] at hc2; simp [ttCndl] at hc2
            | LeftParen => rw [htt] at hc2; simp [ttCndl] at hc2
            | RightParen => rw [htt] at hc2; simp [ttCndl] at hc2
            | LeftBrace => rw [htt] at hc2; simp [ttCndl] at hc2
            | RightBrace => rw [htt] at hc2; simp [ttCndl] at hc2
            | Error => rw [htt] at hc2; simp [ttCndl] at hc2
            | EOF => rw [htt] at hc2; simp [ttCndl] at hc2
          · exact ih st1 stf h (Or.inr (Or.inr ⟨tok2, htok2, hc2⟩))

/-- C3, counterexample: `p => q` does make compile fail, but inside
`create_operation_node`'s unhandled-operation match (while reducing at
the EOF token), not at the operator-precedence lookup; and `$ p => q`
contains an Operator CNDL token yet compile returns a normal
`CompiledSyntaxBTree` (reporting the earlier lexical error), because the
token loop stops before the CNDL token is ever processed. -/
theorem c3_not_always_precedence_lookup :
    compile (toksOf "p => q") = .error Crash.unhandledOperation
    ∧ Crash.unhandledOperation ≠ Crash.precedenceLookup
    ∧ (∃ tok ∈ toksOf "$ p => q", cndlTok tok = true)
    ∧ compile (toksOf "$ p => q") =
        .ok ⟨some ⟨bts "$", TokenType.Error⟩, none, []⟩ :=
  ⟨by decide, by decide,
    ⟨⟨bts "=>", TokenType.Operator OperatorType.CNDL⟩, by decide, by decide⟩,
    by decide⟩

/-- C3 (amended): a token stream containing an Operator CNDL / BI_CNDL
token never compiles to an AST: whenever compile returns a result at all
(rather than panicking), that result carries an error token and no root —
the stray operator either sits on the operator stack until the end (the
final stack is then non-empty) or the loop stopped on an earlier
error. -/
theorem c3_amended_cndl_never_parses (tokens : List Token)
    (r : CompiledSyntaxBTree) (h : compile tokens = .ok r)
    (hc : ∃ tok ∈ tokens, cndlTok tok = true) :
    r.root = none ∧ r.error_token.isSome = true := by
  cases tokens with
  | nil => simp [compile] at h
  | cons t0 rest =>
    cases hl : compileLoop (t0 :: rest) ⟨[], [], [], false, t0⟩ with
    | error c => simp [compile, hl] at h
    | ok st =>
      simp only [compile, hl, Except.ok.injEq] at h
      have hP := compileLoop_cndl (t0 :: rest) ⟨[], [], [], false, t0⟩ st hl
        (Or.inr (Or.inr hc))
      rw [← h]
      rcases hP with he | hos
      · simp [finalize, he]
      · have hosne : st.os ≠ [] := by
          intro h0
          rw [h0] at hos
          simp at hos
        by_cases he : st.error = true
        · simp [finalize, he]
        · have hcond : (st.os.length == 0 && st.ns.length == 1) = false := by
            rcases hcase : st.os with _ | ⟨a, l⟩
            · exact absurd hcase hosne
            · rfl
          simp [finalize, he, hcond]

/-- Witness for C3 (amended) at `$ p => q`: the stream holds an Operator
CNDL token and the compiled result has no root and an error token. -/
theorem c3_witness :
    (∃ tok ∈ toksOf "$ p => q", cndlTok tok = true)
    ∧ ((⟨some ⟨bts "$", TokenType.Error⟩, none, []⟩ :
          CompiledSyntaxBTree).root = none
       ∧ (⟨some ⟨bts "$", TokenType.Error⟩, none, []⟩ :
            CompiledSyntaxBTree).error_token.isSome = true) :=
  ⟨⟨⟨bts "=>", TokenType.Operator OperatorType.CNDL⟩, by decide, by decide⟩,
    c3_amended_cndl_never_parses (toksOf "$ p => q")
      ⟨some ⟨bts "$", TokenType.Error⟩, none, []⟩ (by decide)
      ⟨⟨bts "=>", TokenType.Operator OperatorType.CNDL⟩, by decide, by decide⟩⟩
